import Mathlib

/-!
Verification of the chebpy core numerical algorithms (`chebpy/core/algorithms.py`).

The Python source is shallowly embedded: numpy arrays become Lean lists or
finite-index functions, float arithmetic becomes exact real (or rational)
arithmetic, and the numpy IEEE-754 special values (infinities and NaN) are
modelled explicitly where a claim depends on them.  External collaborators that
are not part of the source file (the FFT pair from `chebpy.core.ffts`, the
numpy eigenvalue solver, the `DefaultPrefs.eps` constant, the function-object
type passed to `newtonroots` and `adaptive`) are modelled from the
specification, as abstract parameters or as the exact mathematical primitive
the spec describes.
-/

open scoped Classical

namespace Chebpy

/-! ### Python rounding

`standard_chop` computes `round(1.25*j+5)` with the Python builtin `round`.
The source is Python 2 code (it uses `xrange`), and the Python 2 builtin
`round` rounds half-integers away from zero: `round(7.5) = 8`,
`round(12.5) = 13`, `round(-12.5) = -13`.  Mathlib's `round` rounds halves
towards `+∞`, which differs on negative halves, so the Python behaviour is
modelled separately. -/

/-- Python 2's builtin `round` on a float: round half away from zero. -/
noncomputable def pyround (x : ℝ) : ℤ :=
  if x < 0 then -⌊-x + 1 / 2⌋ else ⌊x + 1 / 2⌋

theorem pyround_le (x : ℝ) : (pyround x : ℝ) ≤ x + 1 / 2 := by
  unfold pyround
  split_ifs with h
  · have h1 := Int.sub_one_lt_floor (-x + 1 / 2)
    push_cast
    linarith
  · have h1 := Int.floor_le (x + 1 / 2)
    push_cast
    linarith

theorem le_pyround (x : ℝ) : x - 1 / 2 ≤ (pyround x : ℝ) := by
  unfold pyround
  split_ifs with h
  · have h1 := Int.floor_le (-x + 1 / 2)
    push_cast
    linarith
  · have h1 := Int.sub_one_lt_floor (x + 1 / 2)
    push_cast
    linarith

theorem pyround_mono {x y : ℝ} (hxy : x ≤ y) : pyround x ≤ pyround y := by
  by_contra hlt
  push_neg at hlt
  have h1 : pyround y + 1 ≤ pyround x := hlt
  have h2 : (pyround y : ℝ) + 1 ≤ (pyround x : ℝ) := by exact_mod_cast h1
  have h3 := le_pyround y
  have h4 := pyround_le x
  -- all the inequalities collapse to equalities, forcing x = y
  have hxeq : (pyround x : ℝ) = x + 1 / 2 := by linarith
  have hyeq : (pyround y : ℝ) = y - 1 / 2 := by linarith
  have hxy2 : x = y := by linarith
  rw [hxy2] at hxeq
  rw [hxeq] at hyeq
  linarith

/-- Evaluation rule: when `x` lies in `[z, z + 1/2)` the rounded value is `z`. -/
theorem pyround_eq_of_lt_half {x : ℝ} {z : ℤ} (h1 : (z : ℝ) ≤ x) (h2 : x < z + 1 / 2) :
    pyround x = z := by
  unfold pyround
  split_ifs with h
  · have hfl : ⌊-x + 1 / 2⌋ = -z := by
      rw [Int.floor_eq_iff]
      constructor
      · push_cast; linarith
      · push_cast; linarith
    rw [hfl]
    exact neg_neg z
  · rw [Int.floor_eq_iff]
    constructor
    · push_cast; linarith
    · push_cast; linarith

/-- Evaluation rule: when `x` lies in `(z - 1/2, z]` the rounded value is `z`. -/
theorem pyround_eq_of_gt_half {x : ℝ} {z : ℤ} (h1 : (z : ℝ) - 1 / 2 < x) (h2 : x ≤ z) :
    pyround x = z := by
  unfold pyround
  split_ifs with h
  · have hfl : ⌊-x + 1 / 2⌋ = -z := by
      rw [Int.floor_eq_iff]
      constructor
      · push_cast; linarith
      · push_cast; linarith
    rw [hfl]
    exact neg_neg z
  · rw [Int.floor_eq_iff]
    constructor
    · push_cast; linarith
    · push_cast; linarith

/-- Evaluation rule for exact nonnegative half-integers: Python 2 rounds
them away from zero, i.e. up to `z + 1`. -/
theorem pyround_eq_of_half {x : ℝ} {z : ℤ} (h1 : x = (z : ℝ) + 1 / 2) (h2 : 0 ≤ z) :
    pyround x = z + 1 := by
  have hz : (0 : ℝ) ≤ (z : ℝ) := by exact_mod_cast h2
  unfold pyround
  rw [if_neg (by rw [h1]; push_neg; linarith)]
  rw [Int.floor_eq_iff]
  constructor
  · push_cast; linarith
  · push_cast; linarith

/-- Modelled from the spec: `DefaultPrefs.eps` (module `chebpy.core.settings`,
not under `src/`), "machine epsilon" for IEEE double precision, `2^-52`. -/
noncomputable def chebEps : ℝ := 1 / 2 ^ 52

theorem chebEps_pos : 0 < chebEps := by unfold chebEps; positivity

theorem chebEps_lt_one : chebEps < 1 := by
  unfold chebEps
  rw [div_lt_one (by positivity)]
  norm_num

/-! ### standard_chop (source lines 171–224)

The transcription of the Aurentz–Trefethen chopping algorithm.  The embedding
follows the source statement by statement:

* `suffixMax b j` is `m[j]`, the backward running maximum
  `m[j] = max(b[j], m[j+1])` seeded with `m[n-1] = b[n-1]`;
* `plateauScan` is the Step 2 `for` loop: it returns `none` for the early
  `return cutoff` exit (`j2 > n-1`, no plateau) and `some (plateauPoint, j2)`
  for the `break`;
* `chopStep3` is Step 3, with numpy's `log10 0 = -inf` modelled by `EReal`
  and `argmin` returning the first index attaining the minimum;
* the final result of the Step 3 path is `min cutoff (n-1)`.
-/

/-- Backward running maximum `m[j]` of the magnitude list `b` (lines 187–189).
Entries of `b` are absolute values, hence nonnegative, so folding `max` with
initial value `0` computes the same maximum. -/
noncomputable def suffixMax (b : List ℝ) (j : ℕ) : ℝ := (b.drop j).foldr max 0

/-- numpy `log10` on a nonnegative float: `log10 0 = -inf` (with a runtime
warning), otherwise the real base-10 logarithm. -/
noncomputable def elog10 (x : ℝ) : EReal := if x = 0 then ⊥ else ((Real.logb 10 x : ℝ) : EReal)

/-- numpy `argmin`: the index of the first occurrence of the minimum. -/
noncomputable def argminL (l : List EReal) : ℕ := l.indexOf (l.foldr min ⊤)

/-- Step 2 of `standard_chop` (lines 197–209): scan `j = 1, ..., n-1` for a
plateau.  Returns `some (plateauPoint, j2)` on the `break`, and `none` for the
`return cutoff` early exit taken when the lookahead index `j2` exceeds `n-1`.
The fuel argument counts the remaining loop iterations; the loop is entered
with `j = 1` and fuel `n - 1`. -/
noncomputable def plateauScan (env : ℕ → ℝ) (tol : ℝ) (n : ℕ) : ℕ → ℕ → Option (ℕ × ℕ)
  | 0, _ => none
  | fuel + 1, j =>
    let j2 := (pyround (1.25 * j + 5)).toNat
    if n - 1 < j2 then none
    else
      let e1 := env j
      let e2 := env j2
      let r := 3 * (1 - Real.log e1 / Real.log tol)
      if e1 = 0 ∨ r < e2 / e1 then some (j, j2)
      else plateauScan env tol n fuel (j + 1)

/-- The count `j3 = sum(envelope >= tol**(7/6))` of Step 3 (line 215). -/
noncomputable def chopJ3 (env : ℕ → ℝ) (tol : ℝ) (n : ℕ) : ℕ :=
  ((List.range n).filter (fun i => tol ^ ((7 : ℝ) / 6) ≤ env i)).length

/-- The (possibly shrunk) window length `j2` after lines 216–218. -/
noncomputable def chopJ2p (env : ℕ → ℝ) (tol : ℝ) (n j2 : ℕ) : ℕ :=
  if chopJ3 env tol n < j2 then chopJ3 env tol n + 1 else j2

/-- Entry `i` of the array `cc` of Step 3 (lines 219–220): the base-10 log of
the (adjusted) envelope plus the ramp `linspace(0, (-1/3)*log10(tol), j2)`.
The envelope adjustment `envelope[j2] = tol**(7/6)` performed after the window
shrinks to `j2 = j3 + 1` (line 218) writes the index `j3 + 1`, one past the
slice `envelope[:j2]` that `cc` reads, so it is invisible in `cc`; it is
nevertheless reproduced here.  The ramp formula `X*i/(j2-1)` also covers
`j2 = 1` because real division by zero is zero, matching
`linspace(0, X, 1) = [0]`. -/
noncomputable def chopCCf (env : ℕ → ℝ) (tol : ℝ) (n j2 i : ℕ) : EReal :=
  elog10 (if chopJ3 env tol n < j2 ∧ i = chopJ3 env tol n + 1 then tol ^ ((7 : ℝ) / 6)
    else env i) +
  ((((i : ℝ) / ((chopJ2p env tol n j2 : ℝ) - 1)) * (-(1 / 3) * Real.logb 10 tol) : ℝ) : EReal)

/-- Step 3 of `standard_chop` (lines 212–223): given the plateau point `p` and
its lookahead index `j2`, locate the cutoff `d = argmin cc`. -/
noncomputable def chopStep3 (env : ℕ → ℝ) (tol : ℝ) (n p j2 : ℕ) : ℕ :=
  if env p = 0 then p
  else argminL ((List.range (chopJ2p env tol n j2)).map (chopCCf env tol n j2))

/-- The normalized envelope `envelope = m / m[0]` (lines 186–194), built from
the magnitudes `b = abs(coeffs)` via the backward running maximum. -/
noncomputable def chopEnv (coeffs : List ℝ) (j : ℕ) : ℝ :=
  suffixMax (coeffs.map fun x => |x|) j / suffixMax (coeffs.map fun x => |x|) 0

/-- `standard_chop(coeffs, tol)` (lines 171–224): chop a Chebyshev series to a
given tolerance.  Inputs shorter than 17 are returned unchopped; a zero
magnitude envelope gives cutoff 1; a scan without plateau gives `n`; otherwise
Step 3 computes the cutoff, clamped to `n - 1`. -/
noncomputable def standard_chop (coeffs : List ℝ) (tol : ℝ) : ℕ :=
  if coeffs.length < 17 then coeffs.length
  else
    if suffixMax (coeffs.map fun x => |x|) 0 = 0 then 1
    else
      match plateauScan (chopEnv coeffs) tol coeffs.length (coeffs.length - 1) 1 with
      | none => coeffs.length
      | some (p, j2) => min (chopStep3 (chopEnv coeffs) tol coeffs.length p j2) (coeffs.length - 1)

/-! ### Elementary properties of the running maximum and of `argmin` -/

theorem foldr_max_nonneg (l : List ℝ) : 0 ≤ l.foldr max 0 := by
  induction l with
  | nil => simp
  | cons x t ih => exact le_max_of_le_right ih

theorem le_foldr_max {l : List ℝ} {x : ℝ} (hx : x ∈ l) : x ≤ l.foldr max 0 := by
  induction l with
  | nil => simp at hx
  | cons y t ih =>
    rcases List.mem_cons.mp hx with h | h
    · exact h ▸ le_max_left _ _
    · exact le_max_of_le_right (ih h)

theorem foldr_max_le {l : List ℝ} {c : ℝ} (hc : 0 ≤ c) (h : ∀ x ∈ l, x ≤ c) :
    l.foldr max 0 ≤ c := by
  induction l with
  | nil => simpa using hc
  | cons y t ih =>
    exact max_le (h y (List.mem_cons_self y t)) (ih fun x hx => h x (List.mem_cons_of_mem y hx))

theorem suffixMax_nonneg (b : List ℝ) (j : ℕ) : 0 ≤ suffixMax b j :=
  foldr_max_nonneg _

theorem suffixMax_succ_le (b : List ℝ) (j : ℕ) : suffixMax b (j + 1) ≤ suffixMax b j := by
  unfold suffixMax
  by_cases hj : j < b.length
  · rw [List.drop_eq_getElem_cons hj]
    exact le_max_right _ _
  · rw [List.drop_eq_nil_of_le (le_of_not_lt hj), List.drop_eq_nil_of_le (by omega)]

theorem suffixMax_anti (b : List ℝ) : Antitone (suffixMax b) :=
  antitone_nat_of_succ_le (suffixMax_succ_le b)

theorem getD_le_suffixMax (b : List ℝ) (j : ℕ) (h : j < b.length) :
    b.getD j 0 ≤ suffixMax b j := by
  rw [List.getD_eq_getElem b 0 h]
  unfold suffixMax
  rw [List.drop_eq_getElem_cons h]
  exact le_max_left _ _

theorem suffixMax_eq_zero_of_tail_zero (b : List ℝ) (j : ℕ)
    (h : ∀ i, j ≤ i → b.getD i 0 = 0) : suffixMax b j = 0 := by
  unfold suffixMax
  refine le_antisymm (foldr_max_le le_rfl fun x hx => ?_) (foldr_max_nonneg _)
  obtain ⟨i, hi, hxi⟩ := List.mem_iff_getElem.mp hx
  have hlen : j + i < b.length := by
    simp only [List.length_drop] at hi
    omega
  have hx2 : x = b.getD (j + i) 0 := by
    rw [List.getD_eq_getElem b 0 hlen, ← hxi, List.getElem_drop]
  rw [hx2, h (j + i) (by omega)]

theorem getD_eq_zero_of_suffixMax_eq_zero {b : List ℝ} {j : ℕ}
    (hnn : ∀ x ∈ b, 0 ≤ x) (h : suffixMax b j = 0) {i : ℕ} (hij : j ≤ i) :
    b.getD i 0 = 0 := by
  by_cases hi : i < b.length
  · have h1 : b.getD i 0 ≤ suffixMax b i := getD_le_suffixMax b i hi
    have h2 : suffixMax b i ≤ suffixMax b j := suffixMax_anti b hij
    have h3 : 0 ≤ b.getD i 0 := by
      rw [List.getD_eq_getElem b 0 hi]
      exact hnn _ (List.getElem_mem hi)
    linarith
  · exact List.getD_eq_default b 0 (le_of_not_lt hi)

theorem getD_set_ne (l : List ℝ) (a : ℝ) {i j : ℕ} (hne : i ≠ j) (hj : j < l.length) :
    (l.set i a).getD j 0 = l.getD j 0 := by
  rw [List.getD_eq_getElem _ 0 (by simpa using hj), List.getD_eq_getElem _ 0 hj]
  exact List.getElem_set_ne hne _

theorem getD_set_self (l : List ℝ) (a : ℝ) {i : ℕ} (hi : i < l.length) :
    (l.set i a).getD i 0 = a := by
  rw [List.getD_eq_getElem _ 0 (by simpa using hi)]
  exact List.getElem_set_self _

theorem foldr_min_le_of_mem {l : List EReal} {x : EReal} (hx : x ∈ l) :
    l.foldr min ⊤ ≤ x := by
  induction l with
  | nil => simp at hx
  | cons y t ih =>
    rcases List.mem_cons.mp hx with h | h
    · exact h ▸ min_le_left _ _
    · exact le_trans (min_le_right _ _) (ih h)

theorem foldr_min_mem {l : List EReal} (hl : l ≠ []) : l.foldr min ⊤ ∈ l := by
  induction l with
  | nil => exact absurd rfl hl
  | cons y t ih =>
    rw [List.foldr_cons]
    rcases t with _ | ⟨z, t2⟩
    · simp
    · rcases le_or_lt y ((z :: t2).foldr min ⊤) with hle | hlt
      · rw [min_eq_left hle]
        exact List.mem_cons_self _ _
      · rw [min_eq_right (le_of_lt hlt)]
        exact List.mem_cons_of_mem _ (ih (by simp))

theorem indexOf_le_of_getElem {α : Type _} [DecidableEq α] {l : List α} {a : α} {k : ℕ}
    (hk : k < l.length) (h : l[k] = a) : l.indexOf a ≤ k := by
  induction l generalizing k with
  | nil => simp at hk
  | cons y t ih =>
    by_cases hy : y = a
    · rw [List.indexOf_cons_eq t hy]; exact Nat.zero_le k
    · rcases k with _ | k2
      · simp at h; exact absurd h hy
      · rw [List.indexOf_cons_ne t hy]
        exact Nat.succ_le_succ (ih (by simpa using hk) (by simpa using h))

theorem argminL_lt_length {l : List EReal} (hl : l ≠ []) : argminL l < l.length :=
  List.indexOf_lt_length.mpr (foldr_min_mem hl)

/-- If an entry after the head is strictly below the head, `argmin` does not
return index 0. -/
theorem argminL_pos_of_map_range {f : ℕ → EReal} {m i0 : ℕ}
    (h1 : 1 ≤ i0) (hm : i0 < m) (hlt : f i0 < f 0) :
    1 ≤ argminL ((List.range m).map f) := by
  obtain ⟨k, rfl⟩ : ∃ k, m = k + 1 := ⟨m - 1, by omega⟩
  rw [List.range_succ_eq_map, List.map_cons, List.map_map]
  set t := (List.range k).map (f ∘ Nat.succ) with ht
  have hmem : f i0 ∈ t := by
    rw [ht]
    refine List.mem_map.mpr ⟨i0 - 1, List.mem_range.mpr (by omega), ?_⟩
    simp only [Function.comp_apply, Nat.succ_eq_add_one]
    congr 1
    omega
  have hminle : (f 0 :: t).foldr min ⊤ ≤ f i0 :=
    foldr_min_le_of_mem (List.mem_cons_of_mem _ hmem)
  have hne : f 0 ≠ (f 0 :: t).foldr min ⊤ := by
    intro heq
    rw [← heq] at hminle
    exact absurd hminle (not_le.mpr hlt)
  unfold argminL
  rw [List.indexOf_cons_ne t hne]
  exact Nat.succ_le_succ (Nat.zero_le _)

/-- `argmin` returns an index no larger than that of any `-inf` entry. -/
theorem argminL_le_of_bot {f : ℕ → EReal} {m k : ℕ} (hk : k < m) (hfk : f k = ⊥) :
    argminL ((List.range m).map f) ≤ k := by
  have hmem : (⊥ : EReal) ∈ (List.range m).map f :=
    List.mem_map.mpr ⟨k, List.mem_range.mpr hk, hfk⟩
  have hmin : ((List.range m).map f).foldr min ⊤ = ⊥ :=
    le_bot_iff.mp (foldr_min_le_of_mem hmem)
  unfold argminL
  rw [hmin]
  refine indexOf_le_of_getElem (by simpa using hk) ?_
  rw [List.getElem_map, List.getElem_range]
  exact hfk

/-! ### Properties of the Step 2 plateau scan -/

theorem plateauScan_some_spec (env : ℕ → ℝ) (tol : ℝ) (n : ℕ) :
    ∀ fuel j p j2, plateauScan env tol n fuel j = some (p, j2) →
      j ≤ p ∧ j2 = (pyround (1.25 * p + 5)).toNat ∧ j2 ≤ n - 1 ∧
        (env p = 0 ∨ 3 * (1 - Real.log (env p) / Real.log tol) < env j2 / env p) := by
  intro fuel
  induction fuel with
  | zero => intro j p j2 h; simp [plateauScan] at h
  | succ f ih =>
    intro j p j2 h
    rw [plateauScan] at h
    by_cases h1 : n - 1 < (pyround (1.25 * j + 5)).toNat
    · rw [if_pos h1] at h; exact absurd h (by simp)
    · rw [if_neg h1] at h
      by_cases h2 : env j = 0 ∨
          3 * (1 - Real.log (env j) / Real.log tol) <
            env ((pyround (1.25 * j + 5)).toNat) / env j
      · rw [if_pos h2] at h
        obtain ⟨rfl, rfl⟩ : j = p ∧ (pyround (1.25 * j + 5)).toNat = j2 := by
          simpa [Prod.ext_iff, eq_comm] using h
        exact ⟨le_rfl, rfl, le_of_not_lt h1, h2⟩
      · rw [if_neg h2] at h
        obtain ⟨hj, hrest⟩ := ih (j + 1) p j2 h
        exact ⟨by omega, hrest⟩

/-- If the envelope vanishes at `z ≥ 1` and the lookahead index stays within
bounds up to `z`, the scan started at `j ≤ z` breaks at some plateau point
`p ≤ z`. -/
theorem plateauScan_finds (env : ℕ → ℝ) (tol : ℝ) (n z : ℕ) (hz : env z = 0) :
    ∀ fuel j, j ≤ z → z - j < fuel →
      (∀ i, j ≤ i → i ≤ z → (pyround (1.25 * i + 5)).toNat ≤ n - 1) →
      ∃ p j2, plateauScan env tol n fuel j = some (p, j2) ∧ p ≤ z := by
  intro fuel
  induction fuel with
  | zero => intro j hjz hfz hbd; omega
  | succ f ih =>
    intro j hjz hfz hbd
    rw [plateauScan]
    rw [if_neg (not_lt.mpr (hbd j le_rfl hjz))]
    by_cases h2 : env j = 0 ∨
        3 * (1 - Real.log (env j) / Real.log tol) <
          env ((pyround (1.25 * j + 5)).toNat) / env j
    · rw [if_pos h2]
      exact ⟨j, _, rfl, hjz⟩
    · rw [if_neg h2]
      have hjltz : j < z := by
        rcases eq_or_lt_of_le hjz with heq | hlt
        · exact absurd (Or.inl (heq ▸ hz)) h2
        · exact hlt
      exact ih (j + 1) (by omega) (by omega) fun i hi1 hi2 => hbd i (by omega) hi2

/-! ### The Step 3 cutoff is at least 1 -/

/-- The lookahead index `round(1.25*p + 5)` is at least `p + 5`. -/
theorem pyround_lookahead_ge (p : ℕ) : p + 5 ≤ (pyround (1.25 * p + 5)).toNat := by
  have h := le_pyround (1.25 * p + 5)
  have h2 : ((p : ℤ) + 4 : ℤ) < pyround (1.25 * p + 5) := by
    have h3 : ((p : ℝ) + 4) < 1.25 * p + 5 - 1 / 2 := by
      have : (0 : ℝ) ≤ p := Nat.cast_nonneg p
      nlinarith
    have h4 : ((p : ℝ) + 4) < (pyround (1.25 * p + 5) : ℝ) := lt_of_lt_of_le h3 h
    exact_mod_cast h4
  omega

theorem pyround_lookahead_mono {i k : ℕ} (hik : i ≤ k) :
    (pyround (1.25 * i + 5)).toNat ≤ (pyround (1.25 * k + 5)).toNat := by
  have h : pyround (1.25 * i + 5) ≤ pyround (1.25 * k + 5) := by
    apply pyround_mono
    have : (i : ℝ) ≤ (k : ℝ) := Nat.cast_le.mpr hik
    nlinarith
  omega

/-- Counting lemma for `j3`: if the predicate holds on all of `0, ..., k` with
`k < n`, the count over `range n` exceeds `k`. -/
theorem countP_range_ge_of_prefix (pb : ℕ → Bool) {n k : ℕ} (hk : k < n)
    (hall : ∀ i, i ≤ k → pb i = true) :
    k + 1 ≤ (List.range n).countP pb := by
  have h1 : (List.range (k + 1)).countP pb = k + 1 := by
    rw [List.countP_eq_length.mpr]
    · simp
    · intro a ha
      exact hall a (by simpa [Nat.lt_succ_iff] using List.mem_range.mp ha)
  calc k + 1 = (List.range (k + 1)).countP pb := h1.symm
    _ ≤ (List.range n).countP pb := ((List.range_sublist).mpr (by omega)).countP_le _

/-- Counting lemma for `j3`: if the predicate fails everywhere beyond `k`, the
count over `range n` is at most `k + 1`. -/
theorem countP_range_le_of_tail (pb : ℕ → Bool) {n k : ℕ}
    (hfail : ∀ i, k < i → pb i = false) :
    (List.range n).countP pb ≤ k + 1 := by
  by_cases hn : n ≤ k + 1
  · calc (List.range n).countP pb ≤ (List.range n).length := List.countP_le_length pb
      _ ≤ k + 1 := by simpa using hn
  · have hsplit : List.range n = List.range (k + 1) ++ (List.range (n - (k + 1))).map ((k + 1) + ·) := by
      rw [← List.range_add]
      congr 1
      omega
    rw [hsplit, List.countP_append]
    have h2 : ((List.range (n - (k + 1))).map ((k + 1) + ·)).countP pb = 0 := by
      rw [List.countP_eq_zero]
      intro a ha
      obtain ⟨i, _, rfl⟩ := List.mem_map.mp ha
      simp [hfail (k + 1 + i) (by omega)]
    rw [h2]
    calc (List.range (k + 1)).countP pb + 0 ≤ (List.range (k + 1)).length + 0 :=
          Nat.add_le_add_right (List.countP_le_length pb) 0
      _ = k + 1 := by simp

/-- Shared arithmetic step: when the log-envelope value sits below `(2/3)*L`
(with `L = log10 tol < 0`) and the ramp coefficient is in `[0, 1]`, the `cc`
entry is negative. -/
theorem cc_entry_neg {A L t : ℝ} (hA : A < 2 / 3 * L) (hL : L < 0)
    (ht0 : 0 ≤ t) (ht1 : t ≤ 1) : A + t * (-(1 / 3) * L) < 0 := by
  have hterm : t * (-(1 / 3) * L) ≤ -(1 / 3) * L :=
    mul_le_of_le_one_left (by linarith) ht1
  linarith

/-- The cutoff computed by Step 3 is at least 1. -/
theorem chopStep3_pos (env : ℕ → ℝ) (tol : ℝ) (n p j2 : ℕ)
    (htol0 : 0 < tol) (htol1 : tol < 1) (hn : 1 ≤ n)
    (henv0 : env 0 = 1)
    (hnn : ∀ i, 0 ≤ env i)
    (hanti : ∀ i k, i ≤ k → env k ≤ env i)
    (hp : 1 ≤ p)
    (hj2 : j2 = (pyround (1.25 * p + 5)).toNat)
    (hj2n : j2 ≤ n - 1)
    (hplat : env p = 0 ∨ 3 * (1 - Real.log (env p) / Real.log tol) < env j2 / env p) :
    1 ≤ chopStep3 env tol n p j2 := by
  unfold chopStep3
  by_cases hz : env p = 0
  · rw [if_pos hz]; exact hp
  rw [if_neg hz]
  have hτpos : 0 < tol ^ ((7 : ℝ) / 6) := Real.rpow_pos_of_pos htol0 _
  have hτlt1 : tol ^ ((7 : ℝ) / 6) < 1 := Real.rpow_lt_one (le_of_lt htol0) htol1 (by norm_num)
  have he1pos : 0 < env p := lt_of_le_of_ne (hnn p) (Ne.symm hz)
  have hlogtol : Real.log tol < 0 := Real.log_neg htol0 htol1
  have hlog10 : (0 : ℝ) < Real.log 10 := Real.log_pos (by norm_num)
  have hratio : 3 * (1 - Real.log (env p) / Real.log tol) < env j2 / env p :=
    hplat.resolve_left hz
  have hj2ge : p + 5 ≤ j2 := hj2 ▸ pyround_lookahead_ge p
  have he2le : env j2 ≤ env p := hanti p j2 (by omega)
  have hratio1 : env j2 / env p ≤ 1 := (div_le_one he1pos).mpr he2le
  have hloge1 : Real.log (env p) < 2 / 3 * Real.log tol := by
    have h23 : (2 : ℝ) / 3 < Real.log (env p) / Real.log tol := by linarith
    exact (lt_div_iff_of_neg hlogtol).mp h23
  have hL : Real.logb 10 tol < 0 := Real.logb_neg (by norm_num) htol0 htol1
  have hlogb1 : Real.logb 10 (env p) < 2 / 3 * Real.logb 10 tol := by
    unfold Real.logb
    rw [← mul_div_assoc]
    exact (div_lt_div_iff_of_pos_right hlog10).mpr hloge1
  -- j3 is at least 1 because envelope[0] = 1 >= tau
  have hj3ge1 : 1 ≤ chopJ3 env tol n := by
    unfold chopJ3
    rw [← List.countP_eq_length_filter]
    have h0n : 0 < n := hn
    have hc := countP_range_ge_of_prefix (fun i => decide (tol ^ ((7 : ℝ) / 6) ≤ env i)) h0n
      (fun i hi => by
        have hi0 : i = 0 := Nat.le_zero.mp hi
        subst hi0
        exact decide_eq_true (by rw [henv0]; linarith))
    simpa using hc
  -- the cc entry at index 0 is 0
  have hcc0 : chopCCf env tol n j2 0 = 0 := by
    unfold chopCCf
    rw [if_neg (by omega)]
    rw [henv0]
    unfold elog10
    rw [if_neg one_ne_zero, Real.logb_one]
    simp
  -- exhibit a negative cc entry at a positive index, so argmin cannot be 0
  by_cases hcase : chopJ3 env tol n < j2
  · -- window shrinks to j3 + 1
    have hm : chopJ2p env tol n j2 = chopJ3 env tol n + 1 := by
      unfold chopJ2p
      rw [if_pos hcase]
    by_cases hpj3 : p ≤ chopJ3 env tol n
    · -- witness index p
      refine argminL_pos_of_map_range hp (by omega) ?_
      rw [hcc0]
      unfold chopCCf
      rw [if_neg (by omega), hm]
      unfold elog10
      rw [if_neg hz]
      have hden : ((chopJ3 env tol n + 1 : ℕ) : ℝ) - 1 = (chopJ3 env tol n : ℝ) := by
        push_cast
        ring
      rw [hden]
      rw [← EReal.coe_zero, ← EReal.coe_add, EReal.coe_lt_coe_iff]
      refine cc_entry_neg hlogb1 hL (by positivity) ?_
      rw [div_le_one (by exact_mod_cast hj3ge1)]
      exact_mod_cast hpj3
    · -- witness index j3; here envelope[j3] < tau by the prefix property
      push_neg at hpj3
      have hj3n : chopJ3 env tol n < n := by omega
      have henvj3 : env (chopJ3 env tol n) < tol ^ ((7 : ℝ) / 6) := by
        by_contra hge
        push_neg at hge
        have hcount := countP_range_ge_of_prefix
          (fun i => decide (tol ^ ((7 : ℝ) / 6) ≤ env i)) hj3n
          (fun i hi => decide_eq_true (le_trans hge (hanti i _ hi)))
        have heq : (List.range n).countP (fun i => decide (tol ^ ((7 : ℝ) / 6) ≤ env i)) =
            chopJ3 env tol n := by
          unfold chopJ3
          rw [← List.countP_eq_length_filter]
        omega
      refine argminL_pos_of_map_range hj3ge1 (by omega) ?_
      rw [hcc0]
      unfold chopCCf
      rw [if_neg (by omega), hm]
      by_cases hzj3 : env (chopJ3 env tol n) = 0
      · unfold elog10
        rw [if_pos hzj3, EReal.bot_add, ← EReal.coe_zero]
        exact EReal.bot_lt_coe 0
      · unfold elog10
        rw [if_neg hzj3]
        have hden : ((chopJ3 env tol n + 1 : ℕ) : ℝ) - 1 = (chopJ3 env tol n : ℝ) := by
          push_cast
          ring
        rw [hden]
        rw [← EReal.coe_zero, ← EReal.coe_add, EReal.coe_lt_coe_iff]
        have hj3pos : 0 < env (chopJ3 env tol n) := lt_of_le_of_ne (hnn _) (Ne.symm hzj3)
        have hlogbj3 : Real.logb 10 (env (chopJ3 env tol n)) < 7 / 6 * Real.logb 10 tol := by
          have h1 : Real.logb 10 (env (chopJ3 env tol n)) < Real.logb 10 (tol ^ ((7 : ℝ) / 6)) :=
            Real.logb_lt_logb (by norm_num) hj3pos henvj3
          have h2 : Real.logb 10 (tol ^ ((7 : ℝ) / 6)) = 7 / 6 * Real.logb 10 tol := by
            unfold Real.logb
            rw [Real.log_rpow htol0, mul_div_assoc]
          linarith
        have hdiv : (chopJ3 env tol n : ℝ) / (chopJ3 env tol n : ℝ) = 1 :=
          div_self (ne_of_gt (by exact_mod_cast hj3ge1))
        rw [hdiv]
        linarith
  · -- window keeps length j2; witness index p
    have hm : chopJ2p env tol n j2 = j2 := by
      unfold chopJ2p
      rw [if_neg hcase]
    refine argminL_pos_of_map_range hp (by omega) ?_
    rw [hcc0]
    unfold chopCCf
    rw [if_neg (by omega), hm]
    unfold elog10
    rw [if_neg hz]
    rw [← EReal.coe_zero, ← EReal.coe_add, EReal.coe_lt_coe_iff]
    have hj2r : (1 : ℝ) ≤ (j2 : ℝ) - 1 := by
      have h6 : (6 : ℕ) ≤ j2 := by omega
      have h6r : ((6 : ℕ) : ℝ) ≤ ((j2 : ℕ) : ℝ) := Nat.cast_le.mpr h6
      push_cast at h6r
      linarith
    refine cc_entry_neg hlogb1 hL (div_nonneg (Nat.cast_nonneg p) (by linarith)) ?_
    rw [div_le_one (by linarith)]
    have hpj : (p : ℝ) + 5 ≤ (j2 : ℝ) := by exact_mod_cast hj2ge
    linarith

/-- C3: for every coefficient sequence of length `n` and every tolerance
strictly between 0 and 1, `standard_chop` returns a cutoff that is either `n`
itself or lies in the interval `[1, n-1]`; in particular it is never 0 (except
trivially as `n` for the empty sequence) and never exceeds `n`. -/
theorem standard_chop_cutoff_range (coeffs : List ℝ) (tol : ℝ)
    (htol0 : 0 < tol) (htol1 : tol < 1) :
    standard_chop coeffs tol = coeffs.length ∨
      (1 ≤ standard_chop coeffs tol ∧ standard_chop coeffs tol ≤ coeffs.length - 1) := by
  unfold standard_chop
  by_cases h17 : coeffs.length < 17
  · rw [if_pos h17]
    exact Or.inl rfl
  rw [if_neg h17]
  by_cases hm0 : suffixMax (coeffs.map fun x => |x|) 0 = 0
  · rw [if_pos hm0]
    right
    exact ⟨le_rfl, by omega⟩
  rw [if_neg hm0]
  have hm0pos : 0 < suffixMax (coeffs.map fun x => |x|) 0 :=
    lt_of_le_of_ne (suffixMax_nonneg _ 0) (Ne.symm hm0)
  rcases hscan : plateauScan (chopEnv coeffs) tol
      coeffs.length (coeffs.length - 1) 1 with _ | ⟨p, j2⟩
  · exact Or.inl rfl
  · right
    obtain ⟨hp1, hj2eq, hj2n, hplat⟩ := plateauScan_some_spec
      (chopEnv coeffs) tol coeffs.length (coeffs.length - 1) 1 p j2 hscan
    refine ⟨le_min ?_ (by omega), min_le_right _ _⟩
    exact chopStep3_pos _ tol _ p j2 htol0 htol1 (by omega)
      (div_self hm0)
      (fun i => div_nonneg (suffixMax_nonneg _ i) (le_of_lt hm0pos))
      (fun i k hik =>
        div_le_div_of_nonneg_right (suffixMax_anti _ hik) (le_of_lt hm0pos))
      hp1 hj2eq hj2n hplat

/-- Concrete instance of C3: a short sequence is returned unchopped. -/
theorem standard_chop_cutoff_range_witness :
    standard_chop [1, 2, 3] (1 / 2) = ([(1 : ℝ), 2, 3]).length ∨
      (1 ≤ standard_chop [1, 2, 3] (1 / 2) ∧
        standard_chop [1, 2, 3] (1 / 2) ≤ ([(1 : ℝ), 2, 3]).length - 1) :=
  standard_chop_cutoff_range [1, 2, 3] (1 / 2) (by norm_num) (by norm_num)

/-! ### Evaluation rules for the plateau scan, and the C4 analysis -/

/-- One non-breaking scan iteration when the envelope value at `j` is 1 and
the lookahead value is at most 1 (so the ratio test `e2/e1 > 3` fails). -/
theorem plateauScan_step_cont (env : ℕ → ℝ) (tol : ℝ) (n fuel j m : ℕ)
    (hj2v : (pyround (1.25 * j + 5)).toNat = m) (hm : m ≤ n - 1)
    (he1 : env j = 1) (he2 : env m ≤ 1) :
    plateauScan env tol n (fuel + 1) j = plateauScan env tol n fuel (j + 1) := by
  rw [plateauScan, hj2v]
  rw [if_neg (not_lt.mpr hm)]
  rw [if_neg]
  push_neg
  refine ⟨by rw [he1]; norm_num, ?_⟩
  rw [he1, Real.log_one, zero_div, div_one]
  linarith

/-- The early `return cutoff` exit of the scan. -/
theorem plateauScan_step_exit (env : ℕ → ℝ) (tol : ℝ) (n fuel j m : ℕ)
    (hj2v : (pyround (1.25 * j + 5)).toNat = m) (hm : n - 1 < m) :
    plateauScan env tol n (fuel + 1) j = none := by
  rw [plateauScan, hj2v, if_pos hm]

/-- When the envelope vanishes from index `k + 1` on, the Step 3 cutoff is at
most `k + 1`: either the `cc` window is already that short, or the entry
`cc[k+1] = log10(0) = -inf` forces the argmin at or before `k + 1`. -/
theorem chopStep3_le_of_zero_tail (env : ℕ → ℝ) (tol : ℝ) (n p j2 k : ℕ)
    (htol0 : 0 < tol) (htol1 : tol < 1)
    (hzero : ∀ j, k + 1 ≤ j → env j = 0)
    (hpk : p ≤ k + 1)
    (hj2pos : 1 ≤ j2) :
    chopStep3 env tol n p j2 ≤ k + 1 := by
  unfold chopStep3
  by_cases hz : env p = 0
  · rw [if_pos hz]
    exact hpk
  rw [if_neg hz]
  have hτpos : 0 < tol ^ ((7 : ℝ) / 6) := Real.rpow_pos_of_pos htol0 _
  have hj3le : chopJ3 env tol n ≤ k + 1 := by
    unfold chopJ3
    rw [← List.countP_eq_length_filter]
    exact countP_range_le_of_tail (fun i => decide (tol ^ ((7 : ℝ) / 6) ≤ env i))
      (fun i hi => decide_eq_false (by rw [hzero i hi]; linarith))
  by_cases hcase : chopJ3 env tol n < j2
  · -- window of length j3 + 1 <= k + 2
    have hm : chopJ2p env tol n j2 = chopJ3 env tol n + 1 := by
      unfold chopJ2p
      rw [if_pos hcase]
    rw [hm]
    have hlt := argminL_lt_length
      (show (List.range (chopJ3 env tol n + 1)).map (chopCCf env tol n j2) ≠ [] by simp)
    rw [List.length_map, List.length_range] at hlt
    omega
  · have hm : chopJ2p env tol n j2 = j2 := by
      unfold chopJ2p
      rw [if_neg hcase]
    rw [hm]
    by_cases hshort : j2 ≤ k + 2
    · have hlt := argminL_lt_length
        (show (List.range j2).map (chopCCf env tol n j2) ≠ [] by
          simp
          omega)
      rw [List.length_map, List.length_range] at hlt
      omega
    · -- cc[k+1] = -inf
      push_neg at hshort
      have hbot : chopCCf env tol n j2 (k + 1) = ⊥ := by
        unfold chopCCf
        rw [if_neg (by omega)]
        rw [hzero (k + 1) le_rfl]
        unfold elog10
        rw [if_pos rfl]
        exact EReal.bot_add _
      exact argminL_le_of_bot (show k + 1 < j2 by omega) hbot

/-- C4 (amended): for a coefficient sequence of length at least 17 whose
entries vanish at every index strictly greater than `k` (with at least one
nonzero entry), `standard_chop` at the default tolerance returns a cutoff of
at most `k + 1`, provided the plateau scan's lookahead index at `k + 1`,
`round(1.25*(k+1) + 5)`, does not exceed `n - 1` (otherwise the scan exits
early and the unchopped length `n` is returned, as the counterexample shows). -/
theorem standard_chop_zero_tail_le (coeffs : List ℝ) (k : ℕ)
    (hlen : 17 ≤ coeffs.length)
    (htail : ∀ i, k < i → coeffs.getD i 0 = 0)
    (hex : ∃ i, coeffs.getD i 0 ≠ 0)
    (hbound : (pyround (1.25 * ((k + 1 : ℕ) : ℝ) + 5)).toNat ≤ coeffs.length - 1) :
    standard_chop coeffs chebEps ≤ k + 1 := by
  have hbtail : ∀ i, k < i → (coeffs.map fun x => |x|).getD i 0 = 0 := by
    intro i hi
    by_cases hil : i < coeffs.length
    · rw [List.getD_eq_getElem _ 0 (by simpa using hil), List.getElem_map,
        ← List.getD_eq_getElem coeffs 0 hil, htail i hi]
      exact abs_zero
    · exact List.getD_eq_default _ 0 (by simpa using le_of_not_lt hil)
  have hsufz : ∀ j, k + 1 ≤ j → suffixMax (coeffs.map fun x => |x|) j = 0 := fun j hj =>
    suffixMax_eq_zero_of_tail_zero _ j (fun i hi => hbtail i (by omega))
  have hkn : k + 6 ≤ coeffs.length - 1 :=
    le_trans (pyround_lookahead_ge (k + 1)) hbound
  unfold standard_chop
  rw [if_neg (not_lt.mpr hlen)]
  by_cases hm0 : suffixMax (coeffs.map fun x => |x|) 0 = 0
  · rw [if_pos hm0]
    omega
  rw [if_neg hm0]
  have hm0pos : 0 < suffixMax (coeffs.map fun x => |x|) 0 :=
    lt_of_le_of_ne (suffixMax_nonneg _ 0) (Ne.symm hm0)
  have henvz : ∀ j, k + 1 ≤ j → chopEnv coeffs j = 0 := by
    intro j hj
    unfold chopEnv
    rw [hsufz j hj, zero_div]
  obtain ⟨p, j2, hscan, hpk⟩ := plateauScan_finds (chopEnv coeffs) chebEps coeffs.length
    (k + 1) (henvz (k + 1) le_rfl) (coeffs.length - 1) 1 (by omega) (by omega)
    (fun i hi1 hi2 => le_trans (pyround_lookahead_mono hi2) hbound)
  rw [hscan]
  obtain ⟨hp1, hj2eq, hj2n, _⟩ := plateauScan_some_spec (chopEnv coeffs) chebEps
    coeffs.length (coeffs.length - 1) 1 p j2 hscan
  refine le_trans (min_le_left _ _) ?_
  refine chopStep3_le_of_zero_tail (chopEnv coeffs) chebEps coeffs.length p j2 k
    chebEps_pos chebEps_lt_one henvz hpk ?_
  have := pyround_lookahead_ge p
  omega

/-- Concrete instance of the amended C4: a single leading nonzero entry
followed by sixteen exact zeros chops to length 1. -/
theorem standard_chop_zero_tail_le_witness :
    standard_chop (1 :: List.replicate 16 0) chebEps ≤ 0 + 1 := by
  have hrep : ∀ (m i : ℕ), (List.replicate m (0 : ℝ)).getD i 0 = 0 := by
    intro m i
    by_cases hi : i < m
    · rw [List.getD_eq_getElem _ 0 (by simpa using hi)]
      exact List.getElem_replicate 0 (by simpa using hi)
    · exact List.getD_eq_default _ 0 (by simpa using le_of_not_lt hi)
  refine standard_chop_zero_tail_le (1 :: List.replicate 16 0) 0 (by simp) ?_ ?_ ?_
  · intro i hi
    obtain ⟨i2, rfl⟩ : ∃ i2, i = i2 + 1 := ⟨i - 1, by omega⟩
    rw [List.getD_cons_succ]
    exact hrep 16 i2
  · exact ⟨0, by norm_num⟩
  · have key : ∀ x : ℝ, x = 6.25 → (pyround x).toNat ≤ (1 :: List.replicate 16 0).length - 1 := by
      intro x hx
      rw [hx, pyround_eq_of_lt_half (show ((6 : ℤ) : ℝ) ≤ 6.25 by norm_num)
        (by push_cast; norm_num)]
      simp
    exact key _ (by push_cast; norm_num)

/-- Envelope of the C4 counterexample list: 1 on indices up to 9. -/
theorem c4env_one : ∀ j, j ≤ 9 →
    chopEnv [1, 1, 1, 1, 1, 1, 1, 1, 1, 1, 0, 0, 0, 0, 0, 0, 0] j = 1 := by
  have hmap : (([1, 1, 1, 1, 1, 1, 1, 1, 1, 1, 0, 0, 0, 0, 0, 0, 0] : List ℝ).map
      fun x => |x|) = [1, 1, 1, 1, 1, 1, 1, 1, 1, 1, 0, 0, 0, 0, 0, 0, 0] := by
    norm_num
  intro j hj
  unfold chopEnv
  rw [hmap]
  have h0 : suffixMax [1, 1, 1, 1, 1, 1, 1, 1, 1, 1, 0, 0, 0, 0, 0, 0, 0] 0 = 1 := by
    norm_num [suffixMax, max_def]
  have hj1 : suffixMax [1, 1, 1, 1, 1, 1, 1, 1, 1, 1, 0, 0, 0, 0, 0, 0, 0] j = 1 := by
    interval_cases j <;> norm_num [suffixMax, max_def]
  rw [h0, hj1]
  norm_num

/-- Envelope of the C4 counterexample list: 0 from index 10 on. -/
theorem c4env_zero : ∀ j, 10 ≤ j →
    chopEnv [1, 1, 1, 1, 1, 1, 1, 1, 1, 1, 0, 0, 0, 0, 0, 0, 0] j = 0 := by
  have hmap : (([1, 1, 1, 1, 1, 1, 1, 1, 1, 1, 0, 0, 0, 0, 0, 0, 0] : List ℝ).map
      fun x => |x|) = [1, 1, 1, 1, 1, 1, 1, 1, 1, 1, 0, 0, 0, 0, 0, 0, 0] := by
    norm_num
  intro j hj
  unfold chopEnv
  rw [hmap]
  have h10 : suffixMax [1, 1, 1, 1, 1, 1, 1, 1, 1, 1, 0, 0, 0, 0, 0, 0, 0] 10 = 0 := by
    norm_num [suffixMax, max_def]
  have hle := suffixMax_anti [1, 1, 1, 1, 1, 1, 1, 1, 1, 1, 0, 0, 0, 0, 0, 0, 0] hj
  have hnn := suffixMax_nonneg [1, 1, 1, 1, 1, 1, 1, 1, 1, 1, 0, 0, 0, 0, 0, 0, 0] j
  rw [h10] at hle
  rw [show suffixMax [1, 1, 1, 1, 1, 1, 1, 1, 1, 1, 0, 0, 0, 0, 0, 0, 0] j = 0 from
    le_antisymm hle hnn]
  norm_num

/-- The plateau scan on the C4 counterexample list exits early at `j = 10`,
where the lookahead index is `round(17.5) = 18 > 16`. -/
theorem c4scan : plateauScan (chopEnv [1, 1, 1, 1, 1, 1, 1, 1, 1, 1, 0, 0, 0, 0, 0, 0, 0])
    chebEps 17 16 1 = none := by
  have s1 := plateauScan_step_cont (chopEnv [1, 1, 1, 1, 1, 1, 1, 1, 1, 1, 0, 0, 0, 0, 0, 0, 0])
    chebEps 17 15 1 6
    (by rw [show (1.25 * ((1 : ℕ) : ℝ) + 5) = 6.25 by push_cast; norm_num,
      pyround_eq_of_lt_half (show ((6 : ℤ) : ℝ) ≤ 6.25 by norm_num) (by push_cast; norm_num)]
       ; rfl)
    (by norm_num) (c4env_one 1 (by norm_num)) (le_of_eq (c4env_one 6 (by norm_num)))
  have s2 := plateauScan_step_cont (chopEnv [1, 1, 1, 1, 1, 1, 1, 1, 1, 1, 0, 0, 0, 0, 0, 0, 0])
    chebEps 17 14 2 8
    (by rw [show (1.25 * ((2 : ℕ) : ℝ) + 5) = 7.5 by push_cast; norm_num,
      pyround_eq_of_half (show (7.5 : ℝ) = ((7 : ℤ) : ℝ) + 1 / 2 by norm_num) (by decide)]
       ; rfl)
    (by norm_num) (c4env_one 2 (by norm_num)) (le_of_eq (c4env_one 8 (by norm_num)))
  have s3 := plateauScan_step_cont (chopEnv [1, 1, 1, 1, 1, 1, 1, 1, 1, 1, 0, 0, 0, 0, 0, 0, 0])
    chebEps 17 13 3 9
    (by rw [show (1.25 * ((3 : ℕ) : ℝ) + 5) = 8.75 by push_cast; norm_num,
      pyround_eq_of_gt_half (show ((9 : ℤ) : ℝ) - 1 / 2 < 8.75 by norm_num) (by push_cast; norm_num)]
       ; rfl)
    (by norm_num) (c4env_one 3 (by norm_num)) (le_of_eq (c4env_one 9 (by norm_num)))
  have s4 := plateauScan_step_cont (chopEnv [1, 1, 1, 1, 1, 1, 1, 1, 1, 1, 0, 0, 0, 0, 0, 0, 0])
    chebEps 17 12 4 10
    (by rw [show (1.25 * ((4 : ℕ) : ℝ) + 5) = 10 by push_cast; norm_num,
      pyround_eq_of_lt_half (show ((10 : ℤ) : ℝ) ≤ 10 by norm_num) (by push_cast; norm_num)]
       ; rfl)
    (by norm_num) (c4env_one 4 (by norm_num))
    (by rw [c4env_zero 10 (by norm_num)]; norm_num)
  have s5 := plateauScan_step_cont (chopEnv [1, 1, 1, 1, 1, 1, 1, 1, 1, 1, 0, 0, 0, 0, 0, 0, 0])
    chebEps 17 11 5 11
    (by rw [show (1.25 * ((5 : ℕ) : ℝ) + 5) = 11.25 by push_cast; norm_num,
      pyround_eq_of_lt_half (show ((11 : ℤ) : ℝ) ≤ 11.25 by norm_num) (by push_cast; norm_num)]
       ; rfl)
    (by norm_num) (c4env_one 5 (by norm_num))
    (by rw [c4env_zero 11 (by norm_num)]; norm_num)
  have s6 := plateauScan_step_cont (chopEnv [1, 1, 1, 1, 1, 1, 1, 1, 1, 1, 0, 0, 0, 0, 0, 0, 0])
    chebEps 17 10 6 13
    (by rw [show (1.25 * ((6 : ℕ) : ℝ) + 5) = 12.5 by push_cast; norm_num,
      pyround_eq_of_half (show (12.5 : ℝ) = ((12 : ℤ) : ℝ) + 1 / 2 by norm_num) (by decide)]
       ; rfl)
    (by norm_num) (c4env_one 6 (by norm_num))
    (by rw [c4env_zero 13 (by norm_num)]; norm_num)
  have s7 := plateauScan_step_cont (chopEnv [1, 1, 1, 1, 1, 1, 1, 1, 1, 1, 0, 0, 0, 0, 0, 0, 0])
    chebEps 17 9 7 14
    (by rw [show (1.25 * ((7 : ℕ) : ℝ) + 5) = 13.75 by push_cast; norm_num,
      pyround_eq_of_gt_half (show ((14 : ℤ) : ℝ) - 1 / 2 < 13.75 by norm_num) (by push_cast; norm_num)]
       ; rfl)
    (by norm_num) (c4env_one 7 (by norm_num))
    (by rw [c4env_zero 14 (by norm_num)]; norm_num)
  have s8 := plateauScan_step_cont (chopEnv [1, 1, 1, 1, 1, 1, 1, 1, 1, 1, 0, 0, 0, 0, 0, 0, 0])
    chebEps 17 8 8 15
    (by rw [show (1.25 * ((8 : ℕ) : ℝ) + 5) = 15 by push_cast; norm_num,
      pyround_eq_of_lt_half (show ((15 : ℤ) : ℝ) ≤ 15 by norm_num) (by push_cast; norm_num)]
       ; rfl)
    (by norm_num) (c4env_one 8 (by norm_num))
    (by rw [c4env_zero 15 (by norm_num)]; norm_num)
  have s9 := plateauScan_step_cont (chopEnv [1, 1, 1, 1, 1, 1, 1, 1, 1, 1, 0, 0, 0, 0, 0, 0, 0])
    chebEps 17 7 9 16
    (by rw [show (1.25 * ((9 : ℕ) : ℝ) + 5) = 16.25 by push_cast; norm_num,
      pyround_eq_of_lt_half (show ((16 : ℤ) : ℝ) ≤ 16.25 by norm_num) (by push_cast; norm_num)]
       ; rfl)
    (by norm_num) (c4env_one 9 (by norm_num))
    (by rw [c4env_zero 16 (by norm_num)]; norm_num)
  have s10 := plateauScan_step_exit (chopEnv [1, 1, 1, 1, 1, 1, 1, 1, 1, 1, 0, 0, 0, 0, 0, 0, 0])
    chebEps 17 6 10 18
    (by rw [show (1.25 * ((10 : ℕ) : ℝ) + 5) = 17.5 by push_cast; norm_num,
      pyround_eq_of_half (show (17.5 : ℝ) = ((17 : ℤ) : ℝ) + 1 / 2 by norm_num) (by decide)]
       ; rfl)
    (by norm_num)
  norm_num at s1 s2 s3 s4 s5 s6 s7 s8 s9 s10
  rw [s1, s2, s3, s4, s5, s6, s7, s8, s9, s10]

/-- C4 counterexample: a length-17 sequence of ten ones followed by seven
exact zeros (zero tail beyond index `k = 9`, at least one nonzero entry)
chops, at the default tolerance, to the full length 17 — not to at most
`k + 1 = 10` as the claim states — because the scan's lookahead exits early. -/
theorem standard_chop_zero_tail_counterexample :
    standard_chop [1, 1, 1, 1, 1, 1, 1, 1, 1, 1, 0, 0, 0, 0, 0, 0, 0] chebEps = 17 ∧
      (∀ i, 9 < i →
        ([1, 1, 1, 1, 1, 1, 1, 1, 1, 1, 0, 0, 0, 0, 0, 0, 0] : List ℝ).getD i 0 = 0) ∧
      ¬standard_chop [1, 1, 1, 1, 1, 1, 1, 1, 1, 1, 0, 0, 0, 0, 0, 0, 0] chebEps ≤ 9 + 1 := by
  have hmap : (([1, 1, 1, 1, 1, 1, 1, 1, 1, 1, 0, 0, 0, 0, 0, 0, 0] : List ℝ).map
      fun x => |x|) = [1, 1, 1, 1, 1, 1, 1, 1, 1, 1, 0, 0, 0, 0, 0, 0, 0] := by
    norm_num
  have hmain : standard_chop [1, 1, 1, 1, 1, 1, 1, 1, 1, 1, 0, 0, 0, 0, 0, 0, 0] chebEps = 17 := by
    unfold standard_chop
    rw [if_neg (by norm_num)]
    rw [if_neg (show ¬(suffixMax (([1, 1, 1, 1, 1, 1, 1, 1, 1, 1, 0, 0, 0, 0, 0, 0, 0] :
        List ℝ).map fun x => |x|) 0 = 0) by
      rw [hmap]
      norm_num [suffixMax, max_def])]
    norm_num
    rw [c4scan]
  refine ⟨hmain, ?_, by rw [hmain]; norm_num⟩
  intro i hi
  by_cases hil : i < 17
  · interval_cases i <;> simp
  · exact List.getD_eq_default _ 0 (by simpa using le_of_not_lt hil)

/-! ### newtonroots (source lines 326–337)

The function object `fun` and its derivative `fun.diff()` are external
collaborators, modelled as a pair of rational functions `f`, `df` applied
elementwise; finite float arithmetic is modelled exactly over ℚ.  The `while`
guard is `(norm(rts - prv, inf) > tol) & (count <= maxiter)` with `count`
starting at 0 and incremented at the top of the body, so the body can run up
to `maxiter + 1` times.  On the very first test `prv = inf * rts`, which
under IEEE arithmetic is `±inf` at nonzero entries and `nan` at zero entries
(`inf * 0 = nan`); a `nan` propagates through the infinity norm and makes the
`>` comparison false.  Hence the loop is entered at all iff every entry of
`rts` is nonzero; all later quantities are finite and compared exactly. -/

/-- `norm(rts - prv, inf)`: the maximum absolute elementwise difference. -/
def infnormDiff (l1 l2 : List ℚ) : ℚ :=
  (List.zipWith (fun a b => |a - b|) l1 l2).foldr max 0

/-- One Newton update `rts = rts - fun(rts)/dfun(rts)` (line 336). -/
def newtonStep (f df : ℚ → ℚ) (rts : List ℚ) : List ℚ :=
  rts.map fun x => x - f x / df x

/-- The `while` loop of lines 333–336, with the first body execution already
performed by the caller; the fuel is the number of body executions still
allowed by the `count <= maxiter` conjunct. -/
def newtonAux (f df : ℚ → ℚ) (tol : ℚ) : ℕ → List ℚ → List ℚ → List ℚ
  | 0, _, rts => rts
  | fuel + 1, prv, rts =>
    if tol < infnormDiff rts prv then
      newtonAux f df tol fuel rts (newtonStep f df rts)
    else rts

/-- `newtonroots(fun, rts, tol, maxiter)` (lines 326–337). -/
def newtonroots (f df : ℚ → ℚ) (rts : List ℚ) (tol : ℚ) (maxiter : ℕ) : List ℚ :=
  if 0 < rts.length then
    if rts.all (fun x => decide (x ≠ 0)) then
      newtonAux f df tol maxiter rts (newtonStep f df rts)
    else rts
  else rts

/-- C9 (amended): `newtonroots` performs at most `maxiter + 1` Newton update
steps (the body may run once for each counter value `0, ..., maxiter`), and
returns the input unchanged when the root list is empty.  The claim's bound
of `maxiter` steps fails: see the counterexample. -/
theorem newtonroots_step_bound (f df : ℚ → ℚ) (rts : List ℚ) (tol : ℚ) (maxiter : ℕ) :
    (∃ k, k ≤ maxiter + 1 ∧
        newtonroots f df rts tol maxiter = (newtonStep f df)^[k] rts) ∧
      (rts = [] → newtonroots f df rts tol maxiter = rts) := by
  constructor
  · unfold newtonroots
    split_ifs with h1 h2
    · have haux : ∀ fuel prv cur m, cur = (newtonStep f df)^[m] rts →
          ∃ k, k ≤ m + fuel ∧
            newtonAux f df tol fuel prv cur = (newtonStep f df)^[k] rts := by
        intro fuel
        induction fuel with
        | zero =>
          intro prv cur m hm
          exact ⟨m, le_rfl, by rw [newtonAux]; exact hm⟩
        | succ fl ih =>
          intro prv cur m hm
          rw [newtonAux]
          split_ifs with hc
          · obtain ⟨k, hk, he⟩ := ih cur (newtonStep f df cur) (m + 1)
              (by rw [Function.iterate_succ_apply', hm])
            exact ⟨k, by omega, he⟩
          · exact ⟨m, by omega, hm⟩
      obtain ⟨k, hk, he⟩ := haux maxiter rts (newtonStep f df rts) 1 (by simp)
      exact ⟨k, by omega, he⟩
    · exact ⟨0, by omega, rfl⟩
    · exact ⟨0, by omega, rfl⟩
  · intro h
    subst h
    rfl

/-- Concrete instance of the amended C9 at the empty root list. -/
theorem newtonroots_step_bound_witness :
    (∃ k, k ≤ 0 + 1 ∧
        newtonroots (fun x => x) (fun _ => 1) [] 1 0 =
          (newtonStep (fun x => x) (fun _ => 1))^[k] []) ∧
      newtonroots (fun x => x) (fun _ => 1) [] 1 0 = [] :=
  ⟨(newtonroots_step_bound (fun x => x) (fun _ => 1) [] 1 0).1,
    (newtonroots_step_bound (fun x => x) (fun _ => 1) [] 1 0).2 rfl⟩

/-- C9 counterexample: for the (constant) function model `fun = 1`,
`fun.diff() = 1`, every Newton update subtracts 1, so from `rts = [1]` with
`tol = 1/2` the step norm is always `1 > tol` and the loop runs for the
counter values `0, ..., 10`: eleven updates, ending at `[-10]`, which is not
reachable in ten or fewer updates. -/
theorem newtonroots_eleven_steps :
    newtonroots (fun _ => 1) (fun _ => 1) [1] (1 / 2) 10 = [-10] ∧
      ∀ k, k ≤ 10 → (newtonStep (fun _ => 1) (fun _ => 1))^[k] [1] ≠ [-10] := by
  have hstep : ∀ a : ℚ, newtonStep (fun _ => 1) (fun _ => 1) [a] = [a - 1] := by
    intro a
    simp [newtonStep]
  have hnorm : ∀ a b : ℚ, infnormDiff [a] [b] = |a - b| := by
    intro a b
    simp only [infnormDiff, List.zipWith_cons_cons, List.zipWith_nil_right, List.foldr_cons,
      List.foldr_nil]
    exact max_eq_left (abs_nonneg _)
  have hgen : ∀ (fuel : ℕ) (c p : ℚ), c - p = -1 →
      newtonAux (fun _ => 1) (fun _ => 1) (1 / 2) fuel [p] [c] = [c - fuel] := by
    intro fuel
    induction fuel with
    | zero =>
      intro c p h
      rw [newtonAux]
      norm_num
    | succ fl ih =>
      intro c p h
      rw [newtonAux, if_pos (by rw [hnorm, h]; norm_num), hstep, ih (c - 1) c (by ring)]
      congr 1
      push_cast
      ring
  have hit : ∀ (k : ℕ) (a : ℚ),
      (newtonStep (fun _ => 1) (fun _ => 1))^[k] [a] = [a - k] := by
    intro k
    induction k with
    | zero =>
      intro a
      simp
    | succ k2 ih =>
      intro a
      rw [Function.iterate_succ_apply, hstep, ih]
      congr 1
      push_cast
      ring
  constructor
  · unfold newtonroots
    rw [if_pos (by norm_num), if_pos (by norm_num), hstep]
    rw [hgen 10 (1 - 1) 1 (by ring)]
    norm_num
  · intro k hk
    rw [hit]
    intro hcon
    injection hcon with h1 h2
    have h2 : (k : ℚ) = 11 := by linarith
    have h3 : k = 11 := by exact_mod_cast h2
    omega

/-! ### adaptive (source lines 227–244)

The constructor class `cls` contributes its `_chebpts` and `_vals2coeffs`
methods and the sampled user function `fun`; all three are external
collaborators, abstracted as function parameters whose composition yields a
real coefficient list for each point count.  The convergence warning of
lines 240–242 is part of the observable behaviour and is modelled as a
boolean flag in the result; a loop that never runs (maxpow2 < 4, where the
Python code would raise `NameError` on the final `return coeffs`) yields
`none`. -/

/-- The `for k in xrange(4, maxpow2+1)` loop of `adaptive` (lines 231–243).
`coeffsAt n` is `cls._vals2coeffs(fun(cls._chebpts(n)))`. -/
noncomputable def adaptiveAux (coeffsAt : ℕ → List ℝ) (maxpow2 : ℕ) :
    ℕ → ℕ → Option (List ℝ × Bool)
  | 0, _ => none
  | fuel + 1, k =>
    if maxpow2 < k then none
    else if standard_chop (coeffsAt (2 ^ k + 1)) chebEps < (coeffsAt (2 ^ k + 1)).length then
      some ((coeffsAt (2 ^ k + 1)).take (standard_chop (coeffsAt (2 ^ k + 1)) chebEps), false)
    else if k = maxpow2 then some (coeffsAt (2 ^ k + 1), true)
    else adaptiveAux coeffsAt maxpow2 fuel (k + 1)

/-- `adaptive(cls, fun, maxpow2)` (lines 227–244): cycle over `2^k + 1`
points for `k = 4, ..., maxpow2`, chopping each coefficient set; the result
flag records whether the non-convergence warning was emitted. -/
noncomputable def adaptive {P V : Type} (chebpts : ℕ → P) (fn : P → V)
    (v2c : V → List ℝ) (maxpow2 : ℕ) : Option (List ℝ × Bool) :=
  adaptiveAux (fun n => v2c (fn (chebpts n))) maxpow2 (maxpow2 + 1) 4

theorem adaptiveAux_warn (coeffsAt : ℕ → List ℝ) (maxpow2 : ℕ) :
    ∀ fuel k, 1 ≤ k → k ≤ maxpow2 → maxpow2 + 1 - k ≤ fuel →
      (∀ j, k ≤ j → j ≤ maxpow2 →
        ¬ standard_chop (coeffsAt (2 ^ j + 1)) chebEps < (coeffsAt (2 ^ j + 1)).length) →
      adaptiveAux coeffsAt maxpow2 fuel k = some (coeffsAt (2 ^ maxpow2 + 1), true) := by
  intro fuel
  induction fuel with
  | zero => intro k h1 h2 h3 h4; omega
  | succ fl ih =>
    intro k h1 h2 h3 h4
    rw [adaptiveAux]
    rw [if_neg (not_lt.mpr h2)]
    rw [if_neg (h4 k le_rfl h2)]
    by_cases hk : k = maxpow2
    · rw [if_pos hk, hk]
    · rw [if_neg hk]
      exact ih (k + 1) (by omega) (by omega) (by omega) fun j hj1 hj2 => h4 j (by omega) hj2

theorem adaptiveAux_found (coeffsAt : ℕ → List ℝ) (maxpow2 : ℕ) :
    ∀ fuel k k0, k ≤ k0 → k0 ≤ maxpow2 → maxpow2 + 1 - k ≤ fuel →
      standard_chop (coeffsAt (2 ^ k0 + 1)) chebEps < (coeffsAt (2 ^ k0 + 1)).length →
      (∀ j, k ≤ j → j < k0 →
        ¬ standard_chop (coeffsAt (2 ^ j + 1)) chebEps < (coeffsAt (2 ^ j + 1)).length) →
      adaptiveAux coeffsAt maxpow2 fuel k =
        some ((coeffsAt (2 ^ k0 + 1)).take (standard_chop (coeffsAt (2 ^ k0 + 1)) chebEps),
          false) := by
  intro fuel
  induction fuel with
  | zero => intro k k0 h1 h2 h3 h4 h5; omega
  | succ fl ih =>
    intro k k0 h1 h2 h3 h4 h5
    rw [adaptiveAux]
    rw [if_neg (not_lt.mpr (by omega))]
    by_cases hk : k = k0
    · subst hk
      rw [if_pos h4]
    · rw [if_neg (h5 k le_rfl (by omega))]
      rw [if_neg (by omega)]
      exact ih (k + 1) k0 (by omega) h2 (by omega) h4 fun j hj1 hj2 => h5 j (by omega) hj2

/-- C8: `adaptive` stops at the first power `k0` (from `2^4+1` up to
`2^maxpow2+1` points) at which the chop length is strictly below the number
of computed coefficients, returning the coefficients truncated to that chop
length with no warning; if the maximum power is reached without this
happening, it emits the non-fatal warning (flag `true`) and returns the full
un-truncated coefficient sequence computed at the maximum resolution. -/
theorem adaptive_spec {P V : Type} (chebpts : ℕ → P) (fn : P → V)
    (v2c : V → List ℝ) (maxpow2 : ℕ) (h4 : 4 ≤ maxpow2) :
    ((∀ k, 4 ≤ k → k ≤ maxpow2 →
        ¬ standard_chop (v2c (fn (chebpts (2 ^ k + 1)))) chebEps <
            (v2c (fn (chebpts (2 ^ k + 1)))).length) →
      adaptive chebpts fn v2c maxpow2 =
        some (v2c (fn (chebpts (2 ^ maxpow2 + 1))), true)) ∧
    (∀ k0, 4 ≤ k0 → k0 ≤ maxpow2 →
      standard_chop (v2c (fn (chebpts (2 ^ k0 + 1)))) chebEps <
          (v2c (fn (chebpts (2 ^ k0 + 1)))).length →
      (∀ j, 4 ≤ j → j < k0 →
        ¬ standard_chop (v2c (fn (chebpts (2 ^ j + 1)))) chebEps <
            (v2c (fn (chebpts (2 ^ j + 1)))).length) →
      adaptive chebpts fn v2c maxpow2 =
        some ((v2c (fn (chebpts (2 ^ k0 + 1)))).take
          (standard_chop (v2c (fn (chebpts (2 ^ k0 + 1)))) chebEps), false)) := by
  constructor
  · intro hall
    exact adaptiveAux_warn _ maxpow2 (maxpow2 + 1) 4 (by omega) h4 (by omega) hall
  · intro k0 hk0a hk0b hconv hbefore
    exact adaptiveAux_found _ maxpow2 (maxpow2 + 1) 4 k0 hk0a hk0b (by omega) hconv hbefore

/-- Concrete instance of C8: a sampler yielding a fixed 3-term coefficient
list (too short to chop) never converges, and the warning path returns the
full list. -/
theorem adaptive_spec_witness :
    adaptive (fun _ : ℕ => ()) (fun _ : Unit => ()) (fun _ : Unit => [1, 2, 3]) 4 =
      some ([1, 2, 3], true) := by
  have hchop : standard_chop [(1 : ℝ), 2, 3] chebEps = 3 := by
    unfold standard_chop
    simp
  refine (adaptive_spec (fun _ : ℕ => ()) (fun _ : Unit => ()) (fun _ : Unit => [1, 2, 3]) 4
    le_rfl).1 ?_
  intro k hk1 hk2
  rw [hchop]
  norm_num

/-! ### bary (source lines 109–151)

`bary` evaluates the barycentric interpolation formula with numpy float
arithmetic; an evaluation point coinciding with a node produces a division
by zero whose infinities and NaNs are patched afterwards (lines 145–149).
Floats are modelled as exact rationals extended with signed infinities and
NaN, with the IEEE-754 special-value rules for arithmetic; finite arithmetic
is exact (rounding and overflow of finite intermediate values are not
modelled, and the sign of zero is dropped — neither affects which entries
become NaN here, since `x - x` is `+0` in IEEE).  numpy's `dot` may sum in a
different order than a sequential loop; over this exact model the sums
coincide, and both loops are transcribed with the same left-to-right
accumulation. -/

inductive RF : Type
  | fin : ℚ → RF
  | inf : Bool → RF
  | nan : RF
deriving DecidableEq

namespace RF

/-- numpy `isnan`. -/
def isnan : RF → Bool
  | nan => true
  | _ => false

def isFinite : RF → Bool
  | fin _ => true
  | _ => false

/-- IEEE negation; the Bool argument of `inf` is the sign bit. -/
def neg : RF → RF
  | fin a => fin (-a)
  | inf s => inf (!s)
  | nan => nan

/-- IEEE addition: NaN propagates, opposite infinities give NaN. -/
def add : RF → RF → RF
  | nan, _ => nan
  | _, nan => nan
  | inf s, inf t => if s = t then inf s else nan
  | inf s, fin _ => inf s
  | fin _, inf t => inf t
  | fin a, fin b => fin (a + b)

def sub (x y : RF) : RF := add x (neg y)

/-- IEEE multiplication: NaN propagates, `0 * inf = NaN`. -/
def mul : RF → RF → RF
  | nan, _ => nan
  | _, nan => nan
  | inf s, inf t => inf (s ^^ t)
  | inf s, fin b => if b = 0 then nan else inf (s ^^ decide (b < 0))
  | fin a, inf t => if a = 0 then nan else inf (t ^^ decide (a < 0))
  | fin a, fin b => fin (a * b)

/-- IEEE division: NaN propagates, `inf/inf = NaN`, `x/inf = 0`,
`x/0 = ±inf` for `x ≠ 0` and `0/0 = NaN` (`x - x` is `+0`, so the sign of
the zero divisor produced by a node hit is positive). -/
def div : RF → RF → RF
  | nan, _ => nan
  | _, nan => nan
  | inf _, inf _ => nan
  | inf s, fin b => inf (s ^^ decide (b < 0))
  | fin _, inf _ => fin 0
  | fin a, fin b =>
    if b = 0 then (if a = 0 then nan else inf (decide (a < 0))) else fin (a / b)

instance : Add RF := ⟨add⟩

instance : Sub RF := ⟨sub⟩

instance : Mul RF := ⟨mul⟩

instance : Div RF := ⟨div⟩

/-- IEEE float equality `==` as used by `xx[k] == xk`: NaN compares unequal
to everything, including itself. -/
def ieeeEq : RF → RF → Bool
  | fin a, fin b => decide (a = b)
  | inf s, inf t => decide (s = t)
  | _, _ => false

/-- numpy summation, modelled as left-to-right accumulation from 0. -/
def lsum (l : List RF) : RF := l.foldl (fun a x => a + x) (fin 0)

theorem add_not_finite_left {x : RF} (y : RF) (hx : x.isFinite = false) :
    (x + y).isFinite = false := by
  show (add x y).isFinite = false
  cases x with
  | fin a => simp [isFinite] at hx
  | nan => cases y <;> rfl
  | inf s =>
    cases y with
    | nan => rfl
    | fin b => rfl
    | inf t =>
      show (if s = t then inf s else nan).isFinite = false
      split <;> rfl

theorem add_not_finite_right (x : RF) {y : RF} (hy : y.isFinite = false) :
    (x + y).isFinite = false := by
  show (add x y).isFinite = false
  cases y with
  | fin b => simp [isFinite] at hy
  | nan => cases x <;> rfl
  | inf t =>
    cases x with
    | nan => rfl
    | fin a => rfl
    | inf s =>
      show (if s = t then inf s else nan).isFinite = false
      split <;> rfl

theorem mul_not_finite_left {x : RF} (y : RF) (hx : x.isFinite = false) :
    (x * y).isFinite = false := by
  show (mul x y).isFinite = false
  cases x with
  | fin a => simp [isFinite] at hx
  | nan => cases y <;> rfl
  | inf s =>
    cases y with
    | nan => rfl
    | inf t => rfl
    | fin b =>
      show (if b = 0 then nan else inf (s ^^ decide (b < 0))).isFinite = false
      split <;> rfl

theorem div_nan_of_not_finite {x y : RF} (hx : x.isFinite = false)
    (hy : y.isFinite = false) : (x / y).isnan = true := by
  show (div x y).isnan = true
  cases x with
  | fin a => simp [isFinite] at hx
  | nan => cases y <;> rfl
  | inf s =>
    cases y with
    | fin b => simp [isFinite] at hy
    | nan => rfl
    | inf t => rfl

theorem lsum_not_finite {l : List RF} {x : RF} (hx : x ∈ l)
    (hfx : x.isFinite = false) : (lsum l).isFinite = false := by
  unfold lsum
  have haux : ∀ (t : List RF) (acc : RF),
      (∃ z ∈ t, z.isFinite = false) ∨ acc.isFinite = false →
      (t.foldl (fun a x2 => a + x2) acc).isFinite = false := by
    intro t
    induction t with
    | nil =>
      intro acc h
      rcases h with ⟨z, hz, _⟩ | h
      · simp at hz
      · exact h
    | cons y t2 ih =>
      intro acc h
      rw [List.foldl_cons]
      rcases h with ⟨z, hz, hzf⟩ | h
      · rcases List.mem_cons.mp hz with rfl | hz2
        · exact ih _ (Or.inr (add_not_finite_right acc hzf))
        · exact ih _ (Or.inl ⟨z, hz2, hzf⟩)
      · exact ih _ (Or.inr (add_not_finite_left y h))
  exact haux l (fin 0) (Or.inl ⟨x, hx, hfx⟩)

end RF

/-- The point-outer loop of `bary` (lines 129–133): for each evaluation
point, form `tt = vk/(xx[i] - xk)` and return `dot(tt, fk) / tt.sum()`. -/
def baryPointLoop {nx nk : ℕ} (xx : Fin nx → RF) (fk xk vk : Fin nk → RF) :
    Fin nx → RF := fun i =>
  RF.lsum ((List.finRange nk).map fun j => (vk j / (xx i - xk j)) * fk j) /
    RF.lsum ((List.finRange nk).map fun j => vk j / (xx i - xk j))

/-- The node-outer loop of `bary` (lines 136–143): accumulate the numerator
and denominator arrays over the barycenters (`temp = vk[j]/(xx - xk[j])`,
`numer += temp*fk[j]`, `denom += temp`), then divide elementwise. -/
def baryNodeLoop {nx nk : ℕ} (xx : Fin nx → RF) (fk xk vk : Fin nk → RF) :
    Fin nx → RF := fun i =>
  ((List.finRange nk).foldl
    (fun (acc : (Fin nx → RF) × (Fin nx → RF)) j =>
      (fun i2 => acc.1 i2 + (vk j / (xx i2 - xk j)) * fk j,
       fun i2 => acc.2 i2 + vk j / (xx i2 - xk j)))
    (fun _ => RF.fin 0, fun _ => RF.fin 0)).1 i /
  ((List.finRange nk).foldl
    (fun (acc : (Fin nx → RF) × (Fin nx → RF)) j =>
      (fun i2 => acc.1 i2 + (vk j / (xx i2 - xk j)) * fk j,
       fun i2 => acc.2 i2 + vk j / (xx i2 - xk j)))
    (fun _ => RF.fin 0, fun _ => RF.fin 0)).2 i

/-- The pre-patch output of `bary`: the dispatch of line 129 between the two
loop forms (`xx.size < 4*xk.size` picks the point-outer form). -/
def baryRaw {nx nk : ℕ} (xx : Fin nx → RF) (fk xk vk : Fin nk → RF) : Fin nx → RF :=
  if nx < 4 * nk then baryPointLoop xx fk xk vk else baryNodeLoop xx fk xk vk

/-- `bary(xx, fk, xk, vk)` (lines 109–151): evaluate by either loop, then
patch every NaN entry whose evaluation point equals some node with the value
at the first matching node (lines 145–149). -/
def bary {nx nk : ℕ} (xx : Fin nx → RF) (fk xk vk : Fin nk → RF) : Fin nx → RF :=
  fun i =>
    if (baryRaw xx fk xk vk i).isnan then
      match (List.finRange nk).find? (fun j => RF.ieeeEq (xx i) (xk j)) with
      | some j => fk j
      | none => baryRaw xx fk xk vk i
    else baryRaw xx fk xk vk i

/-- The pairwise function-valued fold of the node-outer loop, applied at one
evaluation point, is the corresponding scalar pair fold. -/
theorem nodeFold_apply {nx nk : ℕ} (xx : Fin nx → RF) (fk xk vk : Fin nk → RF)
    (l : List (Fin nk)) (i : Fin nx) :
    ∀ a b : Fin nx → RF,
      ((l.foldl
        (fun (acc : (Fin nx → RF) × (Fin nx → RF)) j =>
          (fun i2 => acc.1 i2 + (vk j / (xx i2 - xk j)) * fk j,
           fun i2 => acc.2 i2 + vk j / (xx i2 - xk j)))
        (a, b)).1 i,
       (l.foldl
        (fun (acc : (Fin nx → RF) × (Fin nx → RF)) j =>
          (fun i2 => acc.1 i2 + (vk j / (xx i2 - xk j)) * fk j,
           fun i2 => acc.2 i2 + vk j / (xx i2 - xk j)))
        (a, b)).2 i) =
      l.foldl
        (fun (acc : RF × RF) j =>
          (acc.1 + (vk j / (xx i - xk j)) * fk j, acc.2 + vk j / (xx i - xk j)))
        (a i, b i) := by
  induction l with
  | nil => intro a b; rfl
  | cons j t ih =>
    intro a b
    rw [List.foldl_cons, List.foldl_cons]
    exact ih _ _

/-- A scalar pair fold splits into its two component folds. -/
theorem foldl_pair_split {α : Type} (l : List α) (f g : α → RF) :
    ∀ a b : RF,
      l.foldl (fun (acc : RF × RF) j => (acc.1 + f j, acc.2 + g j)) (a, b) =
        (l.foldl (fun acc j => acc + f j) a, l.foldl (fun acc j => acc + g j) b) := by
  induction l with
  | nil => intro a b; rfl
  | cons j t ih =>
    intro a b
    rw [List.foldl_cons, List.foldl_cons, List.foldl_cons]
    exact ih _ _

/-- The two loop forms of `bary` compute identical outputs on every input. -/
theorem baryLoops_eq {nx nk : ℕ} (xx : Fin nx → RF) (fk xk vk : Fin nk → RF) :
    baryNodeLoop xx fk xk vk = baryPointLoop xx fk xk vk := by
  funext i
  unfold baryNodeLoop baryPointLoop
  have hpair := nodeFold_apply xx fk xk vk (List.finRange nk) i
    (fun _ => RF.fin 0) (fun _ => RF.fin 0)
  have hsplit := foldl_pair_split (List.finRange nk)
    (fun j => (vk j / (xx i - xk j)) * fk j) (fun j => vk j / (xx i - xk j))
    (RF.fin 0) (RF.fin 0)
  rw [hsplit] at hpair
  rw [Prod.mk.injEq] at hpair
  obtain ⟨h1, h2⟩ := hpair
  rw [h1, h2]
  unfold RF.lsum
  rw [List.foldl_map, List.foldl_map]

/-- C6: for every input where no evaluation point coincides with a node, the
point-outer loop (taken when `xx.size < 4*xk.size`) and the node-outer loop
(taken otherwise) compute identical results: the dispatch is purely a
performance heuristic and never changes the output. -/
theorem bary_dispatch_irrelevant {nx nk : ℕ} (xx : Fin nx → RF) (fk xk vk : Fin nk → RF)
    (hnc : ∀ i j, RF.ieeeEq (xx i) (xk j) = false) :
    baryPointLoop xx fk xk vk = baryNodeLoop xx fk xk vk :=
  (baryLoops_eq xx fk xk vk).symm

/-- Concrete instance of C6. -/
theorem bary_dispatch_irrelevant_witness :
    baryPointLoop (fun _ : Fin 1 => RF.fin 0) (fun _ : Fin 1 => RF.fin 2)
        (fun _ : Fin 1 => RF.fin 1) (fun _ : Fin 1 => RF.fin 1) =
      baryNodeLoop (fun _ : Fin 1 => RF.fin 0) (fun _ : Fin 1 => RF.fin 2)
        (fun _ : Fin 1 => RF.fin 1) (fun _ : Fin 1 => RF.fin 1) :=
  bary_dispatch_irrelevant _ _ _ _ (fun i j => by simp [RF.ieeeEq])

theorem isFinite_iff_fin {x : RF} : x.isFinite = true ↔ ∃ a, x = RF.fin a := by
  cases x <;> simp [RF.isFinite]

/-- C5: whenever an evaluation point exactly equals some interpolation node
(all inputs being finite floats), the corresponding output entry of `bary`
equals the value at the first matching node — the node-coincident NaN from
the 0/0 barycentric division is detected and patched. -/
theorem bary_node_hit {nx nk : ℕ} (xx : Fin nx → RF) (fk xk vk : Fin nk → RF)
    (hxx : ∀ i2, (xx i2).isFinite = true) (hxk : ∀ j, (xk j).isFinite = true)
    (hfk : ∀ j, (fk j).isFinite = true) (hvk : ∀ j, (vk j).isFinite = true)
    (i : Fin nx) (j0 : Fin nk)
    (hfind : (List.finRange nk).find? (fun j => RF.ieeeEq (xx i) (xk j)) = some j0) :
    bary xx fk xk vk i = fk j0 := by
  have hj0 : RF.ieeeEq (xx i) (xk j0) = true := by
    have h := List.find?_some hfind
    simpa using h
  obtain ⟨a, hxa⟩ := isFinite_iff_fin.mp (hxx i)
  obtain ⟨b, hxb⟩ := isFinite_iff_fin.mp (hxk j0)
  obtain ⟨q, hq⟩ := isFinite_iff_fin.mp (hvk j0)
  have hab : a = b := by
    rw [hxa, hxb] at hj0
    simpa [RF.ieeeEq] using hj0
  -- the barycentric term at the matching node is infinite or NaN
  have htt : (vk j0 / (xx i - xk j0)).isFinite = false := by
    rw [hxa, hxb, hab, hq]
    have hsub : RF.fin b - RF.fin b = RF.fin 0 := by
      show RF.add (RF.fin b) (RF.neg (RF.fin b)) = RF.fin 0
      show RF.fin (b + -b) = RF.fin 0
      rw [add_neg_cancel]
    rw [hsub]
    show (if (0 : ℚ) = 0 then (if q = 0 then RF.nan else RF.inf (decide (q < 0)))
      else RF.fin (q / 0)).isFinite = false
    rw [if_pos rfl]
    split <;> rfl
  have hmem1 : (vk j0 / (xx i - xk j0)) * fk j0 ∈
      (List.finRange nk).map fun j => (vk j / (xx i - xk j)) * fk j :=
    List.mem_map.mpr ⟨j0, List.mem_finRange j0, rfl⟩
  have hmem2 : vk j0 / (xx i - xk j0) ∈
      (List.finRange nk).map fun j => vk j / (xx i - xk j) :=
    List.mem_map.mpr ⟨j0, List.mem_finRange j0, rfl⟩
  have hnum := RF.lsum_not_finite hmem1 (RF.mul_not_finite_left _ htt)
  have hden := RF.lsum_not_finite hmem2 htt
  have hnan : (baryRaw xx fk xk vk i).isnan = true := by
    unfold baryRaw
    split
    · exact RF.div_nan_of_not_finite hnum hden
    · rw [baryLoops_eq]
      exact RF.div_nan_of_not_finite hnum hden
  unfold bary
  rw [if_pos hnan, hfind]

/-- Concrete instance of C5: a single node coinciding with the single
evaluation point returns the node's value. -/
theorem bary_node_hit_witness :
    bary (fun _ : Fin 1 => RF.fin 1) (fun _ : Fin 1 => RF.fin 7)
      (fun _ : Fin 1 => RF.fin 1) (fun _ : Fin 1 => RF.fin 1) 0 = RF.fin 7 :=
  bary_node_hit (fun _ : Fin 1 => RF.fin 1) (fun _ : Fin 1 => RF.fin 7)
    (fun _ : Fin 1 => RF.fin 1) (fun _ : Fin 1 => RF.fin 1)
    (fun _ => rfl) (fun _ => rfl) (fun _ => rfl) (fun _ => rfl) 0 0
    (by simp [List.find?, RF.ieeeEq, List.finRange])

/-! ### The transform adapter (module `chebpy.core.ffts`, not under `src/`)

Modelled from the spec: the Transform Adapter "wraps a general-purpose
discrete Fourier transform (forward/inverse)", a "forward/inverse
discrete-Fourier-transform pair operating on complex sequences".  The numpy
convention is `fft(x)[k] = sum_j x[j] e^(-2 pi i j k / N)` with `ifft` its
`1/N`-normalized inverse; these are exactly Mathlib's `ZMod.dft` and the
inverse of that linear equivalence.  Length-`N` arrays are indexed by
`ZMod N`, which makes the index arithmetic of the mirrored signals used by
the basis converters transparent. -/

/-- Modelled from the spec: the forward DFT, numpy convention. -/
noncomputable def fft {N : ℕ} [NeZero N] (x : ZMod N → ℂ) : ZMod N → ℂ := ZMod.dft x

/-- Modelled from the spec: the normalized inverse DFT, numpy convention. -/
noncomputable def ifft {N : ℕ} [NeZero N] (x : ZMod N → ℂ) : ZMod N → ℂ := ZMod.dft.symm x

theorem fft_ifft {N : ℕ} [NeZero N] (x : ZMod N → ℂ) : fft (ifft x) = x :=
  ZMod.dft.apply_symm_apply x

theorem ifft_fft {N : ℕ} [NeZero N] (x : ZMod N → ℂ) : ifft (fft x) = x :=
  ZMod.dft.symm_apply_apply x

theorem stdAddChar_conj {N : ℕ} [NeZero N] (t : ZMod N) :
    (starRingEnd ℂ) (ZMod.stdAddChar t) = ZMod.stdAddChar (-t) := by
  rw [ZMod.stdAddChar_apply, ZMod.stdAddChar_apply, AddChar.map_neg_eq_inv,
    Circle.coe_inv_eq_conj]

/-- The DFT of a (pointwise) real signal conjugates into the DFT at the
negated frequency. -/
theorem dft_conj_of_real {N : ℕ} [NeZero N] (Φ : ZMod N → ℂ)
    (h : ∀ j, (Φ j).im = 0) (k : ZMod N) :
    (starRingEnd ℂ) (ZMod.dft Φ k) = ZMod.dft Φ (-k) := by
  rw [ZMod.dft_apply, ZMod.dft_apply, map_sum]
  refine Finset.sum_congr rfl fun j _ => ?_
  rw [smul_eq_mul, smul_eq_mul, map_mul, stdAddChar_conj, neg_neg, mul_neg, neg_neg,
    Complex.conj_eq_iff_im.mpr (h j)]

theorem fft_even {N : ℕ} [NeZero N] {x : ZMod N → ℂ} (h : Function.Even x) :
    Function.Even (fft x) :=
  ZMod.dft_even_iff.mpr h

theorem ifft_even {N : ℕ} [NeZero N] {x : ZMod N → ℂ} (h : Function.Even x) :
    Function.Even (ifft x) := by
  intro k
  have heven : Function.Even (ZMod.dft x) := ZMod.dft_even_iff.mpr h
  show ZMod.dft.symm x (-k) = ZMod.dft.symm x k
  rw [ZMod.invDFT_apply', ZMod.invDFT_apply', neg_neg, heven k]

theorem fft_real_of_real_even {N : ℕ} [NeZero N] {x : ZMod N → ℂ}
    (hre : ∀ j, (x j).im = 0) (hev : Function.Even x) (k : ZMod N) :
    (fft x k).im = 0 := by
  rw [← Complex.conj_eq_iff_im]
  show (starRingEnd ℂ) (ZMod.dft x k) = ZMod.dft x k
  rw [dft_conj_of_real x hre k, ZMod.dft_even_iff.mpr hev k]

theorem ifft_real_of_real_even {N : ℕ} [NeZero N] {x : ZMod N → ℂ}
    (hre : ∀ j, (x j).im = 0) (hev : Function.Even x) (k : ZMod N) :
    (ifft x k).im = 0 := by
  rw [← Complex.conj_eq_iff_im]
  show (starRingEnd ℂ) (ZMod.dft.symm x k) = ZMod.dft.symm x k
  rw [ZMod.invDFT_apply', smul_eq_mul, map_mul]
  rw [map_inv₀, Complex.conj_natCast]
  rw [dft_conj_of_real x hre (-k), neg_neg, ZMod.dft_even_iff.mpr hev k]

theorem ifft_const_mul {N : ℕ} [NeZero N] (a : ℂ) (x : ZMod N → ℂ) :
    ifft (fun t => a * x t) = fun k => a * ifft x k := by
  have h1 : (fun t => a * x t) = a • x := by
    funext t
    simp [Pi.smul_apply, smul_eq_mul]
  unfold ifft
  rw [h1, map_smul]
  funext k
  simp [Pi.smul_apply, smul_eq_mul]

theorem fft_const_mul {N : ℕ} [NeZero N] (a : ℂ) (x : ZMod N → ℂ) :
    fft (fun t => a * x t) = fun k => a * fft x k :=
  ZMod.dft_const_mul a x

theorem ofReal_re_eq_self {z : ℂ} (h : z.im = 0) : ((z.re : ℝ) : ℂ) = z :=
  Complex.ext (Complex.ofReal_re z.re) (by rw [Complex.ofReal_im, h])

theorem I_mul_im_eq_self {z : ℂ} (h : z.re = 0) : Complex.I * ((z.im : ℝ) : ℂ) = z := by
  refine Complex.ext ?_ ?_
  · simp [Complex.mul_re, h]
  · simp [Complex.mul_im]

theorem fft_re_of_imaginary_even {N : ℕ} [NeZero N] {x : ZMod N → ℂ}
    (hre : ∀ t, (x t).re = 0) (hev : Function.Even x) (k : ZMod N) :
    (fft x k).re = 0 := by
  have hx : x = fun t => Complex.I * (((x t).im : ℝ) : ℂ) :=
    funext fun t => (I_mul_im_eq_self (hre t)).symm
  have hx2 : fft x = fun k => Complex.I * fft (fun t => (((x t).im : ℝ) : ℂ)) k := by
    conv_lhs => rw [hx]
    exact fft_const_mul Complex.I _
  have hS : ∀ k, (fft (fun t => (((x t).im : ℝ) : ℂ)) k).im = 0 :=
    fft_real_of_real_even (fun t => Complex.ofReal_im _) (fun t => by rw [hev t])
  rw [hx2]
  rw [Complex.mul_re, Complex.I_re, Complex.I_im, hS k]
  ring

/-- vals2coeffs2, line 290: tmp = append(vals[::-1], vals[1:-1]), a length
2n-2 signal indexed by `ZMod (2*n-2)`. -/
noncomputable def mirrorVals (n : ℕ) [NeZero (2 * n - 2)] (v : Fin n → ℂ)
    (t : ZMod (2 * n - 2)) : ℂ :=
  if h : ZMod.val t < n then
    v ⟨n - 1 - ZMod.val t, by have hb := NeZero.ne (2 * n - 2); omega⟩
  else
    v ⟨ZMod.val t - (n - 1), by
      have hb := ZMod.val_lt t
      have hb2 := NeZero.ne (2 * n - 2)
      omega⟩

/-- coeffs2vals2, line 313: tmp = append(coeffs, coeffs[n-2:0:-1]). -/
noncomputable def mirrorCoeffs (n : ℕ) [NeZero (2 * n - 2)] (c : Fin n → ℂ)
    (t : ZMod (2 * n - 2)) : ℂ :=
  if h : ZMod.val t < n then c ⟨ZMod.val t, h⟩
  else c ⟨2 * n - 2 - ZMod.val t, by have hb := ZMod.val_lt t; omega⟩

/-- vals2coeffs2 for n >= 2: mirror, ifft, real/imaginary/complex branch,
truncate to n, double the interior entries (lines 290-300). -/
noncomputable def v2cMain (n : ℕ) [NeZero (2 * n - 2)] (v : Fin n → ℂ) : Fin n → ℂ :=
  fun i =>
    (if 1 ≤ i.val ∧ i.val ≤ n - 2 then 2 else 1) *
      (if ∀ j, (v j).im = 0 then
        (((ifft (mirrorVals n v) ((i.val : ℕ) : ZMod (2 * n - 2))).re : ℝ) : ℂ)
      else if ∀ j, (v j).re = 0 then
        Complex.I *
          (((ifft (fun t => (((mirrorVals n v t).im : ℝ) : ℂ))
              ((i.val : ℕ) : ZMod (2 * n - 2))).re : ℝ) : ℂ)
      else ifft (mirrorVals n v) ((i.val : ℕ) : ZMod (2 * n - 2)))

/-- vals2coeffs2 (lines 283-301); for n <= 1 the values are returned as-is. -/
noncomputable def vals2coeffs2 (n : ℕ) (v : Fin n → ℂ) : Fin n → ℂ :=
  if h : n ≤ 1 then v
  else
    haveI : NeZero (2 * n - 2) := ⟨by omega⟩
    v2cMain n v

/-- coeffs2vals2, line 312: halve the interior coefficients. -/
noncomputable def halveInterior (n : ℕ) (c : Fin n → ℂ) : Fin n → ℂ :=
  fun i => (if 1 ≤ i.val ∧ i.val ≤ n - 2 then (2 : ℂ)⁻¹ else 1) * c i

/-- coeffs2vals2 for n >= 2: halve interior, mirror, fft,
real/imaginary/complex branch, reversed first n entries (lines 311-323). -/
noncomputable def c2vMain (n : ℕ) [NeZero (2 * n - 2)] (c : Fin n → ℂ) : Fin n → ℂ :=
  fun i =>
    if ∀ j, (halveInterior n c j).im = 0 then
      (((fft (mirrorCoeffs n (halveInterior n c))
          (((n - 1 - i.val : ℕ)) : ZMod (2 * n - 2))).re : ℝ) : ℂ)
    else if ∀ j, (halveInterior n c j).re = 0 then
      Complex.I *
        (((fft (fun t => (((mirrorCoeffs n (halveInterior n c) t).im : ℝ) : ℂ))
            (((n - 1 - i.val : ℕ)) : ZMod (2 * n - 2))).re : ℝ) : ℂ)
    else
      fft (mirrorCoeffs n (halveInterior n c)) (((n - 1 - i.val : ℕ)) : ZMod (2 * n - 2))

/-- coeffs2vals2 (lines 304-323); for n <= 1 the coefficients are returned
as-is. -/
noncomputable def coeffs2vals2 (n : ℕ) (c : Fin n → ℂ) : Fin n → ℂ :=
  if h : n ≤ 1 then c
  else
    haveI : NeZero (2 * n - 2) := ⟨by omega⟩
    c2vMain n c

/-- The mirrored value signal is even: tmp(-t) = tmp(t). -/
theorem mirrorVals_even (n : ℕ) [NeZero (2 * n - 2)] (v : Fin n → ℂ) :
    Function.Even (mirrorVals n v) := by
  intro t
  by_cases ht : t = 0
  · rw [ht, neg_zero]
  · have hM : 2 * n - 2 ≠ 0 := NeZero.ne _
    have hlt := ZMod.val_lt t
    have hval : ZMod.val (-t) = 2 * n - 2 - ZMod.val t := by
      rw [ZMod.neg_val, if_neg ht]
    unfold mirrorVals
    split_ifs with h1 h2 h2 <;>
      (refine congrArg v ?_
       simp only [Fin.mk.injEq]
       rw [hval] at h1 ⊢
       omega)

/-- Reading the mirrored value signal at index n-1-i recovers v i. -/
theorem mirrorVals_index (n : ℕ) [NeZero (2 * n - 2)] (v : Fin n → ℂ) (i : Fin n) :
    mirrorVals n v (((n - 1 - i.val : ℕ)) : ZMod (2 * n - 2)) = v i := by
  have hM : 2 * n - 2 ≠ 0 := NeZero.ne _
  have hv : ZMod.val (((n - 1 - i.val : ℕ)) : ZMod (2 * n - 2)) = n - 1 - i.val :=
    ZMod.val_cast_of_lt (by omega)
  unfold mirrorVals
  split_ifs with h
  · refine congrArg v (Fin.ext ?_)
    show n - 1 - ZMod.val (((n - 1 - i.val : ℕ)) : ZMod (2 * n - 2)) = i.val
    rw [hv]
    have := i.isLt
    omega
  · rw [hv] at h
    exact absurd (by omega : n - 1 - i.val < n) h

/-- Mirroring the restriction to the first n entries of an even signal
recovers the whole signal. -/
theorem mirrorCoeffs_eval (n : ℕ) [NeZero (2 * n - 2)] (g : ZMod (2 * n - 2) → ℂ)
    (hg : Function.Even g) :
    mirrorCoeffs n (fun i : Fin n => g ((i.val : ℕ) : ZMod (2 * n - 2))) = g := by
  funext t
  have hM : 2 * n - 2 ≠ 0 := NeZero.ne _
  have hlt := ZMod.val_lt t
  unfold mirrorCoeffs
  split_ifs with h
  · show g ((ZMod.val t : ℕ) : ZMod (2 * n - 2)) = g t
    rw [ZMod.natCast_zmod_val]
  · show g (((2 * n - 2 - ZMod.val t : ℕ)) : ZMod (2 * n - 2)) = g t
    have hcast : (((2 * n - 2 - ZMod.val t : ℕ)) : ZMod (2 * n - 2)) = -t := by
      have h1 : (((2 * n - 2 - ZMod.val t) + ZMod.val t : ℕ) : ZMod (2 * n - 2)) =
          ((2 * n - 2 : ℕ) : ZMod (2 * n - 2)) := by
        congr 1
        omega
      rw [Nat.cast_add, ZMod.natCast_zmod_val, ZMod.natCast_self] at h1
      exact eq_neg_of_add_eq_zero_left h1
    rw [hcast, hg t]

/-- An even signal on ZMod (2n-2) is determined by its first n entries. -/
theorem eval_all_of_even (n : ℕ) [NeZero (2 * n - 2)] {u : ZMod (2 * n - 2) → ℂ}
    (hu : Function.Even u) (P : ℂ → Prop)
    (h : ∀ i : Fin n, P (u ((i.val : ℕ) : ZMod (2 * n - 2)))) (t : ZMod (2 * n - 2)) :
    P (u t) := by
  by_cases hlt : ZMod.val t < n
  · have h2 := h ⟨ZMod.val t, hlt⟩
    rwa [ZMod.natCast_zmod_val] at h2
  · have hM : 2 * n - 2 ≠ 0 := NeZero.ne _
    have hvt := ZMod.val_lt t
    have ht0 : t ≠ 0 := by
      intro h0
      rw [h0, ZMod.val_zero] at hlt
      omega
    have hneg : ZMod.val (-t) = 2 * n - 2 - ZMod.val t := by
      rw [ZMod.neg_val, if_neg ht0]
    have hlt2 : ZMod.val (-t) < n := by omega
    have h2 := h ⟨ZMod.val (-t), hlt2⟩
    rw [ZMod.natCast_zmod_val] at h2
    rwa [hu t] at h2

theorem c2v_v2c_main (n : ℕ) [NeZero (2 * n - 2)] (v : Fin n → ℂ) :
    c2vMain n (v2cMain n v) = v := by
  have heven : Function.Even (mirrorVals n v) := mirrorVals_even n v
  have hTeven : Function.Even (ifft (mirrorVals n v)) := ifft_even heven
  by_cases hre : ∀ j, (v j).im = 0
  · have hmre : ∀ t, (mirrorVals n v t).im = 0 := by
      intro t
      unfold mirrorVals
      split_ifs <;> exact hre _
    have hTre : ∀ k, (ifft (mirrorVals n v) k).im = 0 :=
      fun k => ifft_real_of_real_even hmre heven k
    have hv2c : v2cMain n v = fun i =>
        (if 1 ≤ i.val ∧ i.val ≤ n - 2 then 2 else 1) *
          ifft (mirrorVals n v) ((i.val : ℕ) : ZMod (2 * n - 2)) := by
      funext i
      unfold v2cMain
      rw [if_pos hre, ofReal_re_eq_self (hTre _)]
    have hhalve : halveInterior n (v2cMain n v) = fun i : Fin n =>
        ifft (mirrorVals n v) ((i.val : ℕ) : ZMod (2 * n - 2)) := by
      funext i
      unfold halveInterior
      simp only [hv2c]
      by_cases hi : 1 ≤ i.val ∧ i.val ≤ n - 2
      · rw [if_pos hi, if_pos hi, inv_mul_cancel_left₀ two_ne_zero]
      · rw [if_neg hi, if_neg hi, one_mul, one_mul]
    have hmc : mirrorCoeffs n (halveInterior n (v2cMain n v)) = ifft (mirrorVals n v) := by
      rw [hhalve]
      exact mirrorCoeffs_eval n (ifft (mirrorVals n v)) hTeven
    have htest : ∀ j : Fin n, (halveInterior n (v2cMain n v) j).im = 0 := by
      intro j
      rw [hhalve]
      exact hTre _
    funext i
    unfold c2vMain
    rw [if_pos htest, hmc, fft_ifft, mirrorVals_index n v i]
    exact ofReal_re_eq_self (hre i)
  · by_cases him : ∀ j, (v j).re = 0
    · have hweven : Function.Even (fun t => (((mirrorVals n v t).im : ℝ) : ℂ)) := by
        intro t
        show (((mirrorVals n v (-t)).im : ℝ) : ℂ) = _
        rw [heven t]
      have hure : ∀ k, (ifft (fun t => (((mirrorVals n v t).im : ℝ) : ℂ)) k).im = 0 :=
        fun k => ifft_real_of_real_even (fun t => Complex.ofReal_im _) hweven k
      have hueven : Function.Even (ifft (fun t => (((mirrorVals n v t).im : ℝ) : ℂ))) :=
        ifft_even hweven
      have hv2c : v2cMain n v = fun i =>
          (if 1 ≤ i.val ∧ i.val ≤ n - 2 then 2 else 1) *
            (Complex.I * ifft (fun t => (((mirrorVals n v t).im : ℝ) : ℂ))
              ((i.val : ℕ) : ZMod (2 * n - 2))) := by
        funext i
        unfold v2cMain
        rw [if_neg hre, if_pos him, ofReal_re_eq_self (hure _)]
      have hhalve : halveInterior n (v2cMain n v) = fun i : Fin n =>
          Complex.I * ifft (fun t => (((mirrorVals n v t).im : ℝ) : ℂ))
            ((i.val : ℕ) : ZMod (2 * n - 2)) := by
        funext i
        unfold halveInterior
        simp only [hv2c]
        by_cases hi : 1 ≤ i.val ∧ i.val ≤ n - 2
        · rw [if_pos hi, if_pos hi, inv_mul_cancel_left₀ two_ne_zero]
        · rw [if_neg hi, if_neg hi, one_mul, one_mul]
      have hIeven : Function.Even (fun t => Complex.I *
          ifft (fun s => (((mirrorVals n v s).im : ℝ) : ℂ)) t) := by
        intro t
        show Complex.I * _ = _
        rw [hueven t]
      have hmc : mirrorCoeffs n (halveInterior n (v2cMain n v)) =
          fun t => Complex.I * ifft (fun s => (((mirrorVals n v s).im : ℝ) : ℂ)) t := by
        rw [hhalve]
        exact mirrorCoeffs_eval n
          (fun t => Complex.I * ifft (fun s => (((mirrorVals n v s).im : ℝ) : ℂ)) t) hIeven
      have htest1 : ¬ ∀ j : Fin n, (halveInterior n (v2cMain n v) j).im = 0 := by
        intro hall
        apply hre
        intro j
        have hu0 : ∀ i : Fin n, ifft (fun s => (((mirrorVals n v s).im : ℝ) : ℂ))
            ((i.val : ℕ) : ZMod (2 * n - 2)) = 0 := by
          intro i'
          have h1 := hall i'
          simp only [hhalve] at h1
          rw [Complex.mul_im, Complex.I_re, Complex.I_im] at h1
          norm_num at h1
          refine Complex.ext ?_ ?_
          · rw [Complex.zero_re]
            exact h1
          · rw [Complex.zero_im]
            exact hure _
        have hu0' : ∀ t, ifft (fun s => (((mirrorVals n v s).im : ℝ) : ℂ)) t = 0 :=
          fun t => eval_all_of_even n hueven (fun z => z = 0) hu0 t
        have hw0 : (((mirrorVals n v (((n - 1 - j.val : ℕ)) : ZMod (2 * n - 2))).im : ℝ) : ℂ)
            = 0 := by
          have hz : ifft (fun s => (((mirrorVals n v s).im : ℝ) : ℂ)) =
              (fun _ : ZMod (2 * n - 2) => (0 : ℂ)) := funext hu0'
          have h2 : fft (ifft (fun s => (((mirrorVals n v s).im : ℝ) : ℂ)))
              (((n - 1 - j.val : ℕ)) : ZMod (2 * n - 2)) = 0 := by
            rw [hz]
            show ZMod.dft (fun _ : ZMod (2 * n - 2) => (0 : ℂ)) _ = 0
            have hzz : (fun _ : ZMod (2 * n - 2) => (0 : ℂ)) = (0 : ZMod (2 * n - 2) → ℂ) := rfl
            rw [hzz, map_zero]
            rfl
          rw [fft_ifft] at h2
          exact h2
        rw [mirrorVals_index n v j] at hw0
        exact_mod_cast hw0
      have htest2 : ∀ j : Fin n, (halveInterior n (v2cMain n v) j).re = 0 := by
        intro j
        simp only [hhalve]
        rw [Complex.mul_re, Complex.I_re, Complex.I_im, hure]
        ring
      funext i
      unfold c2vMain
      rw [if_neg htest1, if_pos htest2]
      have hinner : (fun t => (((mirrorCoeffs n (halveInterior n (v2cMain n v)) t).im : ℝ) : ℂ))
          = ifft (fun s => (((mirrorVals n v s).im : ℝ) : ℂ)) := by
        funext t
        simp only [hmc]
        rw [Complex.mul_im, Complex.I_re, Complex.I_im]
        have harith : (0 : ℝ) * (ifft (fun s => (((mirrorVals n v s).im : ℝ) : ℂ)) t).im +
            1 * (ifft (fun s => (((mirrorVals n v s).im : ℝ) : ℂ)) t).re =
            (ifft (fun s => (((mirrorVals n v s).im : ℝ) : ℂ)) t).re := by ring
        rw [harith]
        exact ofReal_re_eq_self (hure t)
      rw [hinner, fft_ifft]
      show Complex.I *
          (((((((mirrorVals n v (((n - 1 - i.val : ℕ)) : ZMod (2 * n - 2))).im : ℝ) : ℂ)).re : ℝ))
            : ℂ) = v i
      rw [Complex.ofReal_re, mirrorVals_index n v i]
      exact I_mul_im_eq_self (him i)
    · have hv2c : v2cMain n v = fun i =>
          (if 1 ≤ i.val ∧ i.val ≤ n - 2 then 2 else 1) *
            ifft (mirrorVals n v) ((i.val : ℕ) : ZMod (2 * n - 2)) := by
        funext i
        unfold v2cMain
        rw [if_neg hre, if_neg him]
      have hhalve : halveInterior n (v2cMain n v) = fun i : Fin n =>
          ifft (mirrorVals n v) ((i.val : ℕ) : ZMod (2 * n - 2)) := by
        funext i
        unfold halveInterior
        simp only [hv2c]
        by_cases hi : 1 ≤ i.val ∧ i.val ≤ n - 2
        · rw [if_pos hi, if_pos hi, inv_mul_cancel_left₀ two_ne_zero]
        · rw [if_neg hi, if_neg hi, one_mul, one_mul]
      have hmc : mirrorCoeffs n (halveInterior n (v2cMain n v)) = ifft (mirrorVals n v) := by
        rw [hhalve]
        exact mirrorCoeffs_eval n (ifft (mirrorVals n v)) hTeven
      have htest1 : ¬ ∀ j : Fin n, (halveInterior n (v2cMain n v) j).im = 0 := by
        intro hall
        apply hre
        intro j
        have hTre : ∀ t, (ifft (mirrorVals n v) t).im = 0 := by
          intro t
          refine eval_all_of_even n hTeven (fun z => z.im = 0) ?_ t
          intro j'
          have h1 := hall j'
          simpa only [hhalve] using h1
        have h2 := fft_real_of_real_even hTre hTeven (((n - 1 - j.val : ℕ)) : ZMod (2 * n - 2))
        rw [fft_ifft, mirrorVals_index n v j] at h2
        exact h2
      have htest2 : ¬ ∀ j : Fin n, (halveInterior n (v2cMain n v) j).re = 0 := by
        intro hall
        apply him
        intro j
        have hTim : ∀ t, (ifft (mirrorVals n v) t).re = 0 := by
          intro t
          refine eval_all_of_even n hTeven (fun z => z.re = 0) ?_ t
          intro j'
          have h1 := hall j'
          simpa only [hhalve] using h1
        have h2 := fft_re_of_imaginary_even hTim hTeven
          (((n - 1 - j.val : ℕ)) : ZMod (2 * n - 2))
        rw [fft_ifft, mirrorVals_index n v j] at h2
        exact h2
      funext i
      unfold c2vMain
      rw [if_neg htest1, if_neg htest2, hmc, fft_ifft]
      exact mirrorVals_index n v i

/-- C1: for every real or complex value sequence v of length n >= 2, the
composition coeffs2vals2 after vals2coeffs2 is the identity: the
second-kind-points basis converters form an exact round trip (the shallow
embedding computes in exact complex arithmetic, so "to transform precision"
becomes exact equality). -/
theorem coeffs2vals2_vals2coeffs2 (n : ℕ) (hn : 2 ≤ n) (v : Fin n → ℂ) :
    coeffs2vals2 n (vals2coeffs2 n v) = v := by
  haveI : NeZero (2 * n - 2) := ⟨by omega⟩
  unfold coeffs2vals2 vals2coeffs2
  rw [dif_neg (by omega : ¬ n ≤ 1), dif_neg (by omega : ¬ n ≤ 1)]
  exact c2v_v2c_main n v

/-- Witness for C1 at n = 2 with the genuinely complex input (1, i). -/
theorem coeffs2vals2_vals2coeffs2_witness :
    2 ≤ 2 ∧ coeffs2vals2 2 (vals2coeffs2 2 ![1, Complex.I]) = ![1, Complex.I] :=
  ⟨by decide, coeffs2vals2_vals2coeffs2 2 (by decide) ![1, Complex.I]⟩

/-! ### coeffmult (lines 247-257) -/

/-- coeffmult, lines 250-251: Fc = append(2*fc[:1], (fc[1:], fc[:0:-1])),
a length 2n-1 signal indexed by `ZMod (2*n-1)`. -/
noncomputable def chebExtend (n : ℕ) [NeZero (2 * n - 1)] (f : Fin n → ℂ)
    (t : ZMod (2 * n - 1)) : ℂ :=
  if h0 : ZMod.val t = 0 then
    2 * f ⟨0, by have hb := NeZero.ne (2 * n - 1); omega⟩
  else if h : ZMod.val t < n then f ⟨ZMod.val t, h⟩
  else f ⟨2 * n - 1 - ZMod.val t, by have hb := ZMod.val_lt t; omega⟩

/-- coeffmult, line 253: ak = append(ak[:1], ak[1:] + ak[:0:-1]) * .25,
where ak = ifft(fft(Fc) * fft(Gc)) (line 252), truncated to length n. -/
noncomputable def coeffmultAk (n : ℕ) [NeZero (2 * n - 1)] (fc gc : Fin n → ℂ)
    (i : Fin n) : ℂ :=
  if i.val = 0 then
    ifft (fun t => fft (chebExtend n fc) t * fft (chebExtend n gc) t)
      ((i.val : ℕ) : ZMod (2 * n - 1)) / 4
  else
    (ifft (fun t => fft (chebExtend n fc) t * fft (chebExtend n gc) t)
        ((i.val : ℕ) : ZMod (2 * n - 1)) +
      ifft (fun t => fft (chebExtend n fc) t * fft (chebExtend n gc) t)
        (((2 * n - 1 - i.val : ℕ)) : ZMod (2 * n - 1))) / 4

/-- coeffmult (lines 247-257): the real parts are extracted when both input
sequences are real (line 256). -/
noncomputable def coeffmult (n : ℕ) (fc gc : Fin n → ℂ) : Fin n → ℂ :=
  if hn : n = 0 then fc
  else
    haveI : NeZero (2 * n - 1) := ⟨by omega⟩
    fun i =>
      if (∀ j, (fc j).im = 0) ∧ (∀ j, (gc j).im = 0) then
        (((coeffmultAk n fc gc i).re : ℝ) : ℂ)
      else coeffmultAk n fc gc i

/-- The length-n coefficient sequence of the constant function 1. -/
def e0coeffs (n : ℕ) : Fin n → ℂ := fun i => if i.val = 0 then 1 else 0

theorem chebExtend_e0 (n : ℕ) [NeZero (2 * n - 1)] :
    chebExtend n (e0coeffs n) = fun t => if t = 0 then 2 else 0 := by
  funext t
  by_cases ht : t = 0
  · subst ht
    rw [if_pos rfl]
    unfold chebExtend
    rw [dif_pos ZMod.val_zero]
    unfold e0coeffs
    norm_num
  · rw [if_neg ht]
    have hv : ZMod.val t ≠ 0 := fun h => ht ((ZMod.val_eq_zero t).mp h)
    unfold chebExtend
    rw [dif_neg hv]
    split_ifs with h
    · unfold e0coeffs
      simp [hv]
    · have hlt := ZMod.val_lt t
      unfold e0coeffs
      rw [if_neg (by simp only []; omega : ¬ ((⟨2 * n - 1 - ZMod.val t, _⟩ : Fin n)).val = 0)]

theorem fft_delta_two (N : ℕ) [NeZero N] :
    fft (fun t : ZMod N => if t = 0 then (2 : ℂ) else 0) = fun _ => 2 := by
  funext k
  show ZMod.dft (fun t : ZMod N => if t = 0 then (2 : ℂ) else 0) k = 2
  rw [ZMod.dft_apply, Finset.sum_eq_single 0]
  · simp
  · intro j _ hj
    simp [hj]
  · intro h
    exact absurd (Finset.mem_univ 0) h

theorem chebExtend_apply_zero (n : ℕ) [NeZero (2 * n - 1)] (f : Fin n → ℂ)
    (i : Fin n) (hi : i.val = 0) :
    chebExtend n f 0 = 2 * f i := by
  unfold chebExtend
  rw [dif_pos ZMod.val_zero]
  exact congrArg (2 * f ·) (Fin.ext (by simp [hi]))

theorem chebExtend_apply_lt (n : ℕ) [NeZero (2 * n - 1)] (f : Fin n → ℂ)
    (i : Fin n) (hi : i.val ≠ 0) :
    chebExtend n f ((i.val : ℕ) : ZMod (2 * n - 1)) = f i := by
  have hlt : i.val < 2 * n - 1 := by have := i.isLt; omega
  have hv : ZMod.val ((i.val : ℕ) : ZMod (2 * n - 1)) = i.val := ZMod.val_cast_of_lt hlt
  unfold chebExtend
  rw [dif_neg (by rw [hv]; exact hi), dif_pos (by rw [hv]; exact i.isLt)]
  refine congrArg f (Fin.ext ?_)
  show ZMod.val ((i.val : ℕ) : ZMod (2 * n - 1)) = i.val
  exact hv

theorem chebExtend_apply_mirror (n : ℕ) [NeZero (2 * n - 1)] (f : Fin n → ℂ)
    (i : Fin n) (hi : i.val ≠ 0) :
    chebExtend n f (((2 * n - 1 - i.val : ℕ)) : ZMod (2 * n - 1)) = f i := by
  have hn1 : 1 ≤ n := by have := i.isLt; omega
  have hlt : 2 * n - 1 - i.val < 2 * n - 1 := by have := i.isLt; omega
  have hv : ZMod.val (((2 * n - 1 - i.val : ℕ)) : ZMod (2 * n - 1)) = 2 * n - 1 - i.val :=
    ZMod.val_cast_of_lt hlt
  have hib := i.isLt
  unfold chebExtend
  rw [dif_neg (by rw [hv]; omega), dif_neg (by rw [hv]; omega)]
  refine congrArg f (Fin.ext ?_)
  show 2 * n - 1 - ZMod.val (((2 * n - 1 - i.val : ℕ)) : ZMod (2 * n - 1)) = i.val
  rw [hv]
  omega

theorem coeffmultAk_e0 (n : ℕ) [NeZero (2 * n - 1)] (gc : Fin n → ℂ) (i : Fin n) :
    coeffmultAk n (e0coeffs n) gc i = gc i := by
  have hifft : ifft (fun t => fft (chebExtend n (e0coeffs n)) t * fft (chebExtend n gc) t)
      = fun k => 2 * chebExtend n gc k := by
    have hfun : (fun t => fft (chebExtend n (e0coeffs n)) t * fft (chebExtend n gc) t)
        = fun t => 2 * fft (chebExtend n gc) t := by
      simp only [chebExtend_e0, fft_delta_two]
    rw [hfun, ifft_const_mul]
    funext k
    rw [ifft_fft]
  unfold coeffmultAk
  rw [hifft]
  by_cases h0 : i.val = 0
  · rw [if_pos h0]
    have hc : ((i.val : ℕ) : ZMod (2 * n - 1)) = 0 := by
      rw [h0]
      exact Nat.cast_zero
    rw [hc]
    show 2 * chebExtend n gc 0 / 4 = gc i
    rw [chebExtend_apply_zero n gc i h0]
    ring
  · rw [if_neg h0]
    show (2 * chebExtend n gc ((i.val : ℕ) : ZMod (2 * n - 1)) +
        2 * chebExtend n gc (((2 * n - 1 - i.val : ℕ)) : ZMod (2 * n - 1))) / 4 = gc i
    rw [chebExtend_apply_lt n gc i h0, chebExtend_apply_mirror n gc i h0]
    ring

/-- C7: the coefficient sequence (1, 0, ..., 0) of the constant function 1 is
a left identity for coeffmult at equal length n >= 1 (the shallow embedding
computes in exact complex arithmetic, so "up to rounding" becomes exact
equality). -/
theorem coeffmult_e0_left (n : ℕ) (hn : 1 ≤ n) (gc : Fin n → ℂ) :
    coeffmult n (e0coeffs n) gc = gc := by
  haveI : NeZero (2 * n - 1) := ⟨by omega⟩
  funext i
  unfold coeffmult
  rw [dif_neg (by omega : ¬ n = 0)]
  show (if (∀ j, ((e0coeffs n) j).im = 0) ∧ (∀ j, (gc j).im = 0) then
      (((coeffmultAk n (e0coeffs n) gc i).re : ℝ) : ℂ)
    else coeffmultAk n (e0coeffs n) gc i) = gc i
  by_cases hreal : (∀ j, ((e0coeffs n) j).im = 0) ∧ (∀ j, (gc j).im = 0)
  · rw [if_pos hreal, coeffmultAk_e0 n gc i]
    exact ofReal_re_eq_self (hreal.2 i)
  · rw [if_neg hreal]
    exact coeffmultAk_e0 n gc i

/-- Witness for C7 at n = 2 with the complex input (3, 5i). -/
theorem coeffmult_e0_left_witness :
    1 ≤ 2 ∧ coeffmult 2 (e0coeffs 2) ![3, 5 * Complex.I] = ![3, 5 * Complex.I] :=
  ⟨by decide, coeffmult_e0_left 2 (by decide) ![3, 5 * Complex.I]⟩

/-! ### rootsunit (source lines 47–107)

`rootsunit` chops the coefficients, solves for the roots (closed form for two
coefficients, a colleague-matrix eigenvalue problem for 3 to 50 coefficients,
recursive subdivision above 50), then filters, sorts and clamps.  The numpy
`eigvals` call is an external library primitive; it is abstracted as a
parameter `eig` taking the chopped coefficient list (the colleague matrix of
lines 90–95 is a deterministic function of it) and returning the eigenvalues
as (real, imaginary) pairs.  The subdivision branch (lines 67–79) evaluates
the chopped series by the Clenshaw recurrence at second-kind points mapped
into the two halves of the domain, converts the sampled values back to
coefficients with `vals2coeffs2`, recurses with doubled tolerance, and
returns the union of the sub-roots mapped forward into each half.  The
recursion has no structural termination measure (it relies on the chopped
degree of each sub-series falling), so it is modelled with explicit fuel:
`none` models a recursion deeper than the supplied fuel. -/

/-- The fixed interior split point (line 44). -/
noncomputable def SPLITPOINT : ℝ := -0.004849834917525

/-- Modelled from the spec: the `Interval` collaborator (module
`chebpy.core.utilities`, not under `src/`) is "an invertible affine transform
between the canonical domain and an arbitrary real sub-interval" supporting
"forward application to a point/point-sequence": the affine map sending
`[-1,1]` onto `[a,b]`. -/
noncomputable def intervalMap (a b x : ℝ) : ℝ := (a + b) / 2 + x * (b - a) / 2

/-- chebpts2 (lines 273–280): the n Chebyshev points of the second kind,
`cos((n-1-k)*pi/(n-1))` for k = 0, …, n-1. -/
noncomputable def chebpts2 (n : ℕ) : List ℝ :=
  if n = 1 then [0]
  else List.map (fun k => Real.cos (((n - 1 - k : ℕ) : ℝ) * Real.pi / ((n : ℝ) - 1)))
    (List.range n)

/-- The descending index list `idx[ak.size:1:-2]` of clenshaw's loop
(line 162): size-1, size-3, …, stopping above index 1. -/
def clenshawKs (s : ℕ) : List ℕ :=
  List.map (fun i => s - 1 - 2 * i) (List.range ((s - 1) / 2))

/-- The paired recurrence steps of clenshaw's loop (lines 162–164): at index
k, first `bk2 = ak[k] + xx*bk1 - bk2`, then, with the updated bk2,
`bk1 = ak[k-1] + xx*bk2 - bk1`; the state is the pair (bk1, bk2). -/
noncomputable def clenshawLoop (a : List ℝ) (x2 : ℝ) : List ℕ → ℝ × ℝ → ℝ × ℝ
  | [], st => st
  | k :: ks, st =>
      clenshawLoop a x2 ks
        (a.getD (k - 1) 0 + x2 * (a.getD k 0 + x2 * st.1 - st.2) - st.1,
          a.getD k 0 + x2 * st.1 - st.2)

/-- clenshaw (lines 154–168) at a single point: the doubled abscissa, the
paired descending loop, the unpaired final step when
`mod(ak.size - 1, 2) == 1`, and the halved closing step. -/
noncomputable def clenshaw (x : ℝ) (a : List ℝ) : ℝ :=
  let x2 := 2 * x
  let p := clenshawLoop a x2 (clenshawKs a.length) (0, 0)
  let q := if ((a.length : ℤ) - 1) % 2 = 1 then (a.getD 1 0 + x2 * p.1 - p.2, p.1) else p
  a.getD 0 0 + (1 / 2) * x2 * q.1 - q.2

/-- vals2coeffs2 applied to a real sample list, as the subdivision branch
does (line 75): the converter takes its real-input branch (lines 291–293)
and the result is real. -/
noncomputable def vals2coeffs2List (l : List ℝ) : List ℝ :=
  List.ofFn (fun i : Fin l.length =>
    (vals2coeffs2 l.length (fun j => ((l.get j : ℝ) : ℂ)) i).re)

/-- The final clamp (lines 104–106): when at least two sorted roots remain,
raise the first to at least -1 and lower the last to at most 1. -/
noncomputable def clampEnds (l : List ℝ) : List ℝ :=
  if 2 ≤ l.length then
    (l.set 0 (max (l.getD 0 0) (-1))).set (l.length - 1) (min (l.getD (l.length - 1) 0) 1)
  else l

/-- `rootsunit(ak, htol)` (lines 47–107).  Above 50 chopped coefficients the
function subdivides (lines 67–79): sample the chopped series at second-kind
points mapped into `[-1, SPLITPOINT]` and `[SPLITPOINT, 1]`, convert back to
coefficients, recurse with tolerance `2*htol`, and concatenate the remapped
sub-roots (no further filtering or clamping).  For chopped length `n <= 1`
there are no roots; for `n = 2` the single closed-form root is `-ak[0]/ak[1]`
(no guard against `ak[1] = 0`); for 3 to 50 the abstracted eigenvalue solver
is invoked.  Eigenvalues with imaginary magnitude at least `htol` are
discarded, the rest are kept as real values, filtered to magnitude at most
`1 + htol`, sorted ascending, and end-clamped. -/
noncomputable def rootsunit (eig : List ℝ → List (ℝ × ℝ)) :
    ℕ → List ℝ → ℝ → Option (List ℝ)
  | 0, _, _ => none
  | fuel + 1, ak, htol =>
      if 50 < standard_chop ak chebEps then
        match
          rootsunit eig fuel
            (vals2coeffs2List (List.map
              (fun x => clenshaw x (ak.take (standard_chop ak chebEps)))
              (List.map (fun y => intervalMap (-1) SPLITPOINT y)
                (chebpts2 (standard_chop ak chebEps))))) (2 * htol),
          rootsunit eig fuel
            (vals2coeffs2List (List.map
              (fun x => clenshaw x (ak.take (standard_chop ak chebEps)))
              (List.map (fun y => intervalMap SPLITPOINT 1 y)
                (chebpts2 (standard_chop ak chebEps))))) (2 * htol) with
        | some lrts, some rrts =>
            some (List.map (fun y => intervalMap (-1) SPLITPOINT y) lrts ++
              List.map (fun y => intervalMap SPLITPOINT 1 y) rrts)
        | _, _ => none
      else if standard_chop ak chebEps ≤ 1 then some []
      else
        some (clampEnds (List.insertionSort (fun a b => a ≤ b)
          ((((if standard_chop ak chebEps = 2 then
                [(-((ak.take (standard_chop ak chebEps)).getD 0 0) /
                    (ak.take (standard_chop ak chebEps)).getD 1 0, 0)]
              else eig (ak.take (standard_chop ak chebEps))).filter
                fun z => |z.2| < htol).map Prod.fst).filter fun x => |x| ≤ 1 + htol)))

/-- Membership bound survives the end clamp, for any bound at least 1. -/
theorem clampEnds_mem_bound {B : ℝ} (hB : 1 ≤ B) {l : List ℝ}
    (h : ∀ x ∈ l, |x| ≤ B) : ∀ x ∈ clampEnds l, |x| ≤ B := by
  intro x hx
  unfold clampEnds at hx
  by_cases h2 : 2 ≤ l.length
  · rw [if_pos h2] at hx
    rcases List.mem_or_eq_of_mem_set hx with hx1 | hx1
    · rcases List.mem_or_eq_of_mem_set hx1 with hx2 | hx2
      · exact h x hx2
      · subst hx2
        have hget : |l.getD 0 0| ≤ B := by
          have : l.getD 0 0 ∈ l := by
            rw [List.getD_eq_getElem _ 0 (by omega)]
            exact List.getElem_mem _
          exact h _ this
        rw [abs_le] at hget ⊢
        constructor
        · rcases le_or_lt (l.getD 0 0) (-1) with hc | hc
          · rw [max_eq_right hc]; linarith
          · rw [max_eq_left (le_of_lt hc)]; linarith
        · rcases le_or_lt (l.getD 0 0) (-1) with hc | hc
          · rw [max_eq_right hc]; linarith
          · rw [max_eq_left (le_of_lt hc)]; linarith
    · subst hx1
      have hget : |l.getD (l.length - 1) 0| ≤ B := by
        have : l.getD (l.length - 1) 0 ∈ l := by
          rw [List.getD_eq_getElem _ 0 (by omega)]
          exact List.getElem_mem _
        exact h _ this
      rw [abs_le] at hget ⊢
      constructor
      · rcases le_or_lt 1 (l.getD (l.length - 1) 0) with hc | hc
        · rw [min_eq_right hc]; linarith
        · rw [min_eq_left (le_of_lt hc)]; linarith
      · rcases le_or_lt 1 (l.getD (l.length - 1) 0) with hc | hc
        · rw [min_eq_right hc]; linarith
        · rw [min_eq_left (le_of_lt hc)]; linarith
  · rw [if_neg h2] at hx
    exact h x hx

/-- After the clamp, a list of at least two entries starts at least at -1 and
ends at most at 1. -/
theorem clampEnds_ends (l : List ℝ) (h2 : 2 ≤ l.length) :
    -1 ≤ (clampEnds l).getD 0 0 ∧
      (clampEnds l).getD ((clampEnds l).length - 1) 0 ≤ 1 := by
  unfold clampEnds
  rw [if_pos h2]
  have hlen1 : (l.set 0 (max (l.getD 0 0) (-1))).length = l.length := by simp
  have hlen2 : ((l.set 0 (max (l.getD 0 0) (-1))).set (l.length - 1)
      (min (l.getD (l.length - 1) 0) 1)).length = l.length := by simp
  constructor
  · rw [getD_set_ne _ _ (show l.length - 1 ≠ 0 by omega) (by simp; omega)]
    rw [getD_set_self _ _ (by omega)]
    exact le_max_right _ _
  · rw [hlen2]
    rw [getD_set_self _ _ (by simp; omega)]
    exact min_le_right _ _

/-- C2 (amended): the clamp into [-1,1] fires only when at least two roots
survive the filters.  At every invocation reaching the filter-and-clamp
stage (chopped length at most 50 — including the leaf calls of the
subdivision recursion), each returned root has magnitude at most `1 + htol`,
and when at least two roots are returned the first sorted root is at least
-1 and the last is at most 1; a single returned root is not clamped and can
lie outside `[-1, 1]` (see the counterexample). -/
theorem rootsunit_bounds (eig : List ℝ → List (ℝ × ℝ)) (fuel : ℕ) (ak : List ℝ)
    (htol : ℝ) (hh : 0 < htol) (hchop : standard_chop ak chebEps ≤ 50) {l : List ℝ}
    (hl : rootsunit eig fuel ak htol = some l) :
    (∀ x ∈ l, |x| ≤ 1 + htol) ∧
      (2 ≤ l.length → -1 ≤ l.getD 0 0 ∧ l.getD (l.length - 1) 0 ≤ 1) := by
  cases fuel with
  | zero => simp [rootsunit] at hl
  | succ fuel =>
    rw [rootsunit] at hl
    rw [if_neg (not_lt.mpr hchop)] at hl
    by_cases hc2 : standard_chop ak chebEps ≤ 1
    · rw [if_pos hc2] at hl
      obtain rfl : ([] : List ℝ) = l := by simpa using hl
      simp
    rw [if_neg hc2] at hl
    obtain rfl : l = clampEnds (List.insertionSort (fun a b => a ≤ b)
        ((((if standard_chop ak chebEps = 2 then
              [(-((ak.take (standard_chop ak chebEps)).getD 0 0) /
                  (ak.take (standard_chop ak chebEps)).getD 1 0, 0)]
            else eig (ak.take (standard_chop ak chebEps))).filter
              fun z => |z.2| < htol).map Prod.fst).filter fun x => |x| ≤ 1 + htol)) := by
      have := hl
      simpa [eq_comm] using this
    constructor
    · refine clampEnds_mem_bound (by linarith) ?_
      intro x hx
      have hx2 := (List.perm_insertionSort (fun a b => a ≤ b) _).mem_iff.mp hx
      exact of_decide_eq_true (List.mem_filter.mp hx2).2
    · intro h2
      have hlen : 2 ≤ (List.insertionSort (fun a b => a ≤ b)
          ((((if standard_chop ak chebEps = 2 then
                [(-((ak.take (standard_chop ak chebEps)).getD 0 0) /
                    (ak.take (standard_chop ak chebEps)).getD 1 0, 0)]
              else eig (ak.take (standard_chop ak chebEps))).filter
                fun z => |z.2| < htol).map Prod.fst).filter
                  fun x => |x| ≤ 1 + htol)).length := by
        by_contra hcon
        push_neg at hcon
        unfold clampEnds at h2
        rw [if_neg (not_le.mpr hcon)] at h2
        omega
      exact clampEnds_ends _ hlen

/-- Concrete instance of the amended C2, at an input with no surviving
roots. -/
theorem rootsunit_bounds_witness :
    (∀ x ∈ ([] : List ℝ), |x| ≤ 1 + 1) ∧
      (2 ≤ ([] : List ℝ).length →
        -1 ≤ ([] : List ℝ).getD 0 0 ∧
          ([] : List ℝ).getD (([] : List ℝ).length - 1) 0 ≤ 1) := by
  have hchop : standard_chop [] chebEps = 0 := by
    unfold standard_chop
    simp
  refine rootsunit_bounds (fun _ => []) 1 [] 1 (by norm_num)
    (by rw [hchop]; norm_num) ?_
  show rootsunit (fun _ => []) (0 + 1) [] 1 = some []
  rw [rootsunit]
  rw [hchop]
  norm_num

/-- C2 counterexample: for `ak = [-5/4, 1]` and `htol = 1/2`, the chopped
length is 2 (below the 17-coefficient threshold nothing is chopped), the
closed-form root is `5/4`, it survives both filters (`|imag| = 0 < 1/2`,
`|5/4| <= 1 + 1/2`), and — being a single root — it is never clamped: the
returned root `5/4` lies outside `[-1, 1]`. -/
theorem rootsunit_root_outside_counterexample :
    rootsunit (fun _ => []) 1 [-(5 / 4 : ℝ), 1] (1 / 2) = some [5 / 4] ∧
      ¬(5 / 4 : ℝ) ≤ 1 := by
  constructor
  · show rootsunit (fun _ => []) (0 + 1) [-(5 / 4 : ℝ), 1] (1 / 2) = some [5 / 4]
    rw [rootsunit]
    have hchop : standard_chop [-(5 / 4 : ℝ), 1] chebEps = 2 := by
      unfold standard_chop
      simp
    rw [hchop]
    rw [if_neg (by norm_num), if_neg (by norm_num), if_pos rfl]
    refine congrArg some ?_
    rw [show (([-(5 / 4 : ℝ), 1].take 2).getD 0 0) = -(5 / 4) by simp]
    rw [show (([-(5 / 4 : ℝ), 1].take 2).getD 1 0) = 1 by simp]
    rw [show (-(-(5 / 4 : ℝ)) / 1) = 5 / 4 by norm_num]
    simp only [List.filter_cons, List.filter_nil, List.map_cons, List.map_nil]
    norm_num
    rw [show List.filter (fun x => decide (|x| ≤ (3 : ℝ) / 2)) [(5 / 4 : ℝ)] = [5 / 4] by
      simp only [List.filter_cons, List.filter_nil]
      norm_num
      rw [abs_of_pos (by norm_num : (0 : ℝ) < 5 / 4)]
      norm_num]
    rw [show List.insertionSort (fun a b => a ≤ b) [(5 / 4 : ℝ)] = [5 / 4] by
      simp [List.insertionSort, List.orderedInsert]]
    unfold clampEnds
    norm_num
  · norm_num

/-- C10: the length-2 sequence `[c, 0]` is returned unchanged by
`standard_chop` (its length is below the 17-coefficient threshold), so the
closed-form branch of `rootsunit` divides `-ak[0]` by the last retained
coefficient `ak[1] = 0` with no zero guard: the root expression fed to the
filters is literally `(-c)/0`, at any recursion fuel. -/
theorem rootsunit_unguarded_division (c : ℝ) :
    standard_chop [c, 0] chebEps = 2 ∧
      ([c, (0 : ℝ)].take (standard_chop [c, 0] chebEps)).getD 1 0 = 0 ∧
      ∀ (eig : List ℝ → List (ℝ × ℝ)) (htol : ℝ) (fuel : ℕ),
        rootsunit eig (fuel + 1) [c, 0] htol =
          some (clampEnds (List.insertionSort (fun a b => a ≤ b)
            ((([(-c / 0, (0 : ℝ))].filter fun z => |z.2| < htol).map
              Prod.fst).filter fun x => |x| ≤ 1 + htol))) := by
  have hchop : standard_chop [c, (0 : ℝ)] chebEps = 2 := by
    unfold standard_chop
    simp
  refine ⟨hchop, by rw [hchop]; simp, ?_⟩
  intro eig htol fuel
  rw [rootsunit]
  rw [hchop]
  norm_num

end Chebpy
